import Mathlib

/-!
Shallow embedding of the zkper BLS12-381 arithmetic core
(`zkper-curves`: `backends/montgomery/mod.rs`, `curves/bls12_381/*`).

Rust `rug::Integer` values are modeled as `Int`.  The `rug` operators `%`
(and `.rem`) truncate toward zero, so they are modeled by `Int.tmod`;
`/` truncates and is modeled by `Int.tdiv`.  Loops are modeled by
structurally recursive functions with an explicit fuel argument that
provably dominates the number of iterations.
-/

namespace Zkper

set_option maxRecDepth 100000

/-- Modelled from the spec: the BigInteger collaborator contract's
extended-Euclid machinery backing `invert(modulus) -> Result` (GMP
`mpz_invert`, not part of this repository).  `egcdAux fuel a b` returns
`(x, y, g)` with `x * a + y * b = g`, and `g = gcd a b` whenever
`b ≤ fuel`. -/
def egcdAux : Nat → Nat → Nat → Int × Int × Nat
  | 0, a, _ => (1, 0, a)
  | fuel + 1, a, b =>
    if b = 0 then (1, 0, a)
    else
      let q := a / b
      let r := a % b
      let t := egcdAux fuel b r
      (t.2.1, t.1 - (q : Int) * t.2.1, t.2.2)

/-- Modelled from the spec: the BigInteger collaborator's
`invert(modulus) -> Result` (GMP `mpz_invert`): returns the modular
inverse in `[0, m)` when it exists, and fails exactly when
`gcd(a, m) ≠ 1`.  Used by `MontgomeryBackend::invert`, `normalize` and
the `r_inv` computation in `MontgomeryBackend::new`. -/
def intInvert (a m : Int) : Option Int :=
  let t := egcdAux m.toNat a.toNat m.toNat
  if t.2.2 = 1 then some (t.1.emod m) else none

/-- Modelled from the spec: the BigInteger collaborator's
`pow_mod(exp, modulus)` for non-negative exponents (the only way the
core calls it): `(a ^ e) mod m`, with the result in `[0, m)` for
`m > 0`. -/
def powMod (a : Int) (e : Nat) (m : Int) : Int :=
  (a ^ e).emod m

/-- The wrap-around bound of the Rust `u64` arithmetic used by
`MontgomeryBackend::compute_inv`. -/
def W64 : Nat := 2 ^ 64

/-- The loop body of `MontgomeryBackend::compute_inv`
(`inv = inv.wrapping_mul(inv); inv = inv.wrapping_mul(modulus_64)`),
iterated `k` times starting from `1`. -/
def computeInvLoop (m64 : Nat) : Nat → Nat
  | 0 => 1
  | k + 1 => (computeInvLoop m64 k * computeInvLoop m64 k % W64) * m64 % W64

/-- `MontgomeryBackend::compute_inv`: 63 rounds of wrapping squaring and
multiplication over `u64`, then `wrapping_neg`, computing
`-modulus⁻¹ mod 2⁶⁴`.  `to_u64_wrapping` of the (non-negative) modulus is
its low 64 bits. -/
def compute_inv (modulus : Int) : Int :=
  let m64 := modulus.toNat % W64
  let inv := computeInvLoop m64 63
  ((W64 - inv % W64) % W64 : Nat)

/-- `MontgomeryBackend::compute_r`: `R = 2^(limbs*64) mod modulus`. -/
def compute_r (modulus : Int) (limbs : Nat) : Int :=
  powMod 2 (limbs * 64) modulus

/-- The `MontgomeryBackend` struct of `backends/montgomery/mod.rs`. -/
structure MontgomeryBackend where
  modulus : Int
  r : Int
  r2 : Int
  r_inv : Int
  r3 : Int
  inv : Int
  modulus_plus_one_div_four : Option Int
  fp2_sqrt_constant1 : Option Int
  fp2_sqrt_constant2 : Option Int
  three_b_mont : Int
  limbs : Nat
deriving DecidableEq

/-- `MontgomeryBackend::new`.  Notes on faithfulness to the Rust source:
`q = p ^ 2` uses the rug `BitXor` operator, i.e. `p XOR 2`, not `p²`;
integer division truncates (`Int.tdiv`); the `.expect` on `r.invert`
cannot fire for the odd moduli the library instantiates and is modeled
by a default of `0`. -/
def MontgomeryBackend.new (modulus : Int) (limbs : Nat) : MontgomeryBackend :=
  let r := compute_r modulus limbs
  let r2 := powMod r 2 modulus
  let r3 := (r * r2).tmod modulus
  let inv := compute_inv modulus
  let r_inv := (intInvert r modulus).getD 0
  let trio : Option Int × Option Int × Option Int :=
    if modulus.tmod 4 ≠ 3 then (none, none, none)
    else
      let c1 := (modulus + 1).tdiv 4
      let q : Int := Int.ofNat (modulus.toNat ^^^ 2)
      let q1 : Int := (q - 3).tdiv 4 + 1
      let q2 : Int := (q - 1).tdiv 2 + 1
      (some c1, some q1, some q2)
  let three_b_mont := ((12 * r2).tmod modulus * r_inv).tmod modulus
  { modulus := modulus
    r := r
    r2 := r2
    r_inv := r_inv
    r3 := r3
    inv := inv
    modulus_plus_one_div_four := trio.1
    fp2_sqrt_constant1 := trio.2.1
    fp2_sqrt_constant2 := trio.2.2
    three_b_mont := three_b_mont
    limbs := limbs }

/-- `MontgomeryBackend::new_element`: reduce into `[0, modulus)`
(truncating remainder, then a conditional correction). -/
def MontgomeryBackend.new_element (s : MontgomeryBackend) (value : Int) : Int :=
  let normalized := value.tmod s.modulus
  if normalized < 0 then normalized + s.modulus else normalized

/-- `MontgomeryBackend::square`. -/
def MontgomeryBackend.square (s : MontgomeryBackend) (a : Int) : Int :=
  (a * a).tmod s.modulus

/-- `MontgomeryBackend::mul`. -/
def MontgomeryBackend.mul (s : MontgomeryBackend) (input other : Int) : Int :=
  (input * other).tmod s.modulus

/-- `MontgomeryBackend::add`. -/
def MontgomeryBackend.add (s : MontgomeryBackend) (a b : Int) : Int :=
  (a + b).tmod s.modulus

/-- `MontgomeryBackend::sub`. -/
def MontgomeryBackend.sub (s : MontgomeryBackend) (a b : Int) : Int :=
  s.new_element (a - b)

/-- `MontgomeryBackend::cubic`. -/
def MontgomeryBackend.cubic (s : MontgomeryBackend) (input : Int) : Int :=
  s.mul (s.square input) input

/-- `MontgomeryBackend::pow` (delegates to `pow_mod`). -/
def MontgomeryBackend.pow (s : MontgomeryBackend) (a : Int) (exp : Int) : Int :=
  powMod a exp.toNat s.modulus

/-- `MontgomeryBackend::neg`. -/
def MontgomeryBackend.neg (s : MontgomeryBackend) (input : Int) : Int :=
  s.new_element (-input)

/-- `MontgomeryBackend::sqrt` (Shanks for `p ≡ 3 (mod 4)`): raise to
`(p+1)/4`, verify by squaring.  The `panic!` taken when
`modulus_plus_one_div_four` is absent is modeled as `none`. -/
def MontgomeryBackend.sqrt (s : MontgomeryBackend) (input : Int) : Option Int :=
  match s.modulus_plus_one_div_four with
  | some exp =>
    let sq := s.pow input exp
    if s.square sq = input then some (s.new_element sq) else none
  | none => none

/-- `MontgomeryBackend::invert`. -/
def MontgomeryBackend.invert (s : MontgomeryBackend) (input : Int) : Option Int :=
  intInvert input s.modulus

/-- `MontgomeryBackend::mont_mul`:
`((a·b mod m) · R⁻¹) mod m`. -/
def MontgomeryBackend.mont_mul (s : MontgomeryBackend) (a b : Int) : Int :=
  ((a * b).tmod s.modulus * s.r_inv).tmod s.modulus

/-- `MontgomeryBackend::mont_square`. -/
def MontgomeryBackend.mont_square (s : MontgomeryBackend) (input : Int) : Int :=
  s.mont_mul input input

/-- `MontgomeryBackend::mont_cubic`. -/
def MontgomeryBackend.mont_cubic (s : MontgomeryBackend) (a : Int) : Int :=
  s.mont_mul (s.mont_square a) a

/-- `MontgomeryBackend::to_montgomery`: `mont_mul(a, R²)`. -/
def MontgomeryBackend.to_montgomery (s : MontgomeryBackend) (a : Int) : Int :=
  s.mont_mul a s.r2

/-- `MontgomeryBackend::from_montgomery`: `mont_mul(a, 1)`. -/
def MontgomeryBackend.from_montgomery (s : MontgomeryBackend) (a : Int) : Int :=
  s.mont_mul a 1

/-- The `while` loop of `MontgomeryBackend::mont_pow`, with fuel.  Each
iteration: multiply the accumulator by the base when the exponent is
odd, square the base, halve the exponent. -/
def MontgomeryBackend.mont_powAux (s : MontgomeryBackend) :
    Nat → Int → Int → Nat → Int
  | 0, result, _, _ => result
  | fuel + 1, result, base, exp =>
    if exp = 0 then result
    else
      s.mont_powAux fuel (if exp % 2 = 1 then s.mont_mul result base else result)
        (s.mont_mul base base) (exp / 2)

/-- `MontgomeryBackend::mont_pow`: binary exponentiation starting from
`R` (the Montgomery form of `1`). -/
def MontgomeryBackend.mont_pow (s : MontgomeryBackend) (base exponent : Int) : Int :=
  s.mont_powAux (exponent.toNat + 1) s.r base exponent.toNat

/-- `MontgomeryBackend::mont_sqrt`: `mont_pow` by `(p+1)/4`, verified by
a Montgomery squaring.  The `panic!` branch is modeled as `none`. -/
def MontgomeryBackend.mont_sqrt (s : MontgomeryBackend) (input : Int) : Option Int :=
  match s.modulus_plus_one_div_four with
  | some exp =>
    let sq := s.mont_pow input exp
    let sq_squared := s.mont_mul sq sq
    if sq_squared = input then some sq else none
  | none => none

/-- `MontgomeryBackend::normalize`: scale projective coordinates to
`(X : Y : 1)`.  The source unwraps the inversion of `z` with
`.expect("Z should be invertible")`; that panic is modeled as `none`. -/
def MontgomeryBackend.normalize (s : MontgomeryBackend) (x y z : Int) :
    Option (Int × Int × Int) :=
  if z = 1 then some (x, y, z)
  else
    match intInvert z s.modulus with
    | none => none
    | some z_inv =>
      some ((x * z_inv).tmod s.modulus, (y * z_inv).tmod s.modulus, 1)

/-- Modelled from the spec: the BigInteger collaborator's
little-endian-first `from_digits` over bytes (`rug::integer::Order::Lsf`). -/
def fromDigitsLsf : List Nat → Nat
  | [] => 0
  | b :: rest => b + 256 * fromDigitsLsf rest

/-- Modelled from the spec: `from_digits` with `Order::Msf`
(most significant byte first). -/
def fromDigitsMsf (l : List Nat) : Nat :=
  fromDigitsLsf l.reverse

/-- The first half of a sampling draw, interpreted as an integer `d0`
(`from_digits` with order `Lsf` for the 4-limb backend, `Msf`
otherwise), as in `sample_raw`/`sample_mont` over `bytes_needed =
limbs * 16` freshly drawn bytes. -/
def MontgomeryBackend.sample_d0 (s : MontgomeryBackend) (bytes : List Nat) : Int :=
  let lo := bytes.take (s.limbs * 16 / 2)
  ((if s.limbs = 4 then fromDigitsLsf lo else fromDigitsMsf lo : Nat) : Int)

/-- The second half of a sampling draw, interpreted as an integer
`d1`. -/
def MontgomeryBackend.sample_d1 (s : MontgomeryBackend) (bytes : List Nat) : Int :=
  let hi := bytes.drop (s.limbs * 16 / 2)
  ((if s.limbs = 4 then fromDigitsLsf hi else fromDigitsMsf hi : Nat) : Int)

/-- `MontgomeryBackend::sample_raw`, with the `2·limbs·8` freshly drawn
random bytes passed explicitly: split in two halves `d0`, `d1` and
combine as `mont_mul(d0, R) + mont_mul(d1, R²) mod m`. -/
def MontgomeryBackend.sample_raw (s : MontgomeryBackend) (bytes : List Nat) : Int :=
  (s.mont_mul (s.sample_d0 bytes) s.r + s.mont_mul (s.sample_d1 bytes) s.r2).tmod s.modulus

/-- `MontgomeryBackend::sample_mont`: as `sample_raw` but combining with
`mont_mul(d0, R²) + mont_mul(d1, R³) mod m`. -/
def MontgomeryBackend.sample_mont (s : MontgomeryBackend) (bytes : List Nat) : Int :=
  (s.mont_mul (s.sample_d0 bytes) s.r2 + s.mont_mul (s.sample_d1 bytes) s.r3).tmod s.modulus

/-- The BLS12-381 base-field modulus (the decimal literal of
`BLS12_381_BASE` in `curves/bls12_381/mod.rs`). -/
def blsBaseModulus : Int :=
  4002409555221667393417789825735904156556882819939007885332058136124031650490837864442687629129015664037894272559787

/-- The BLS12-381 scalar-field modulus (the decimal literal of
`BLS12_381_SCALAR`). -/
def blsScalarModulus : Int :=
  52435875175126190479447740508185965837690552500527637822603658699938581184513

/-- The lazily initialized `BLS12_381_BASE` backend (6 limbs). -/
def BLS12_381_BASE : MontgomeryBackend :=
  MontgomeryBackend.new blsBaseModulus 6

/-- The lazily initialized `BLS12_381_SCALAR` backend (4 limbs). -/
def BLS12_381_SCALAR : MontgomeryBackend :=
  MontgomeryBackend.new blsScalarModulus 4

/-- Membership of a canonical representative in `[0, m)`. -/
def inRange (m x : Int) : Prop :=
  0 ≤ x ∧ x < m

instance (m x : Int) : Decidable (inRange m x) :=
  inferInstanceAs (Decidable (0 ≤ x ∧ x < m))

/-! ### The quadratic extension `Fp2` (`fields/fp2.rs`) -/

/-- The `Fp2` struct: `c0 + c1·u` with `u² = -1` over the BLS12-381 base
field. -/
structure Fp2 where
  c0 : Int
  c1 : Int
deriving DecidableEq

/-- `Fp2::zero`. -/
def Fp2.zero : Fp2 :=
  { c0 := 0, c1 := 0 }

/-- `Fp2::one`. -/
def Fp2.one : Fp2 :=
  { c0 := 1, c1 := 0 }

/-- `Fp2::is_zero`. -/
def Fp2.is_zero (a : Fp2) : Bool :=
  a.c0 = 0 ∧ a.c1 = 0

/-- `Fp2::mul_by_nonresidue`: multiply by `u + 1`. -/
def Fp2.mul_by_nonresidue (a : Fp2) : Fp2 :=
  { c0 := BLS12_381_BASE.sub a.c0 a.c1
    c1 := BLS12_381_BASE.add a.c0 a.c1 }

/-- `Fp2::conjugate`. -/
def Fp2.conjugate (a : Fp2) : Fp2 :=
  { c0 := a.c0, c1 := BLS12_381_BASE.neg a.c1 }

/-- `Fp2::frobenius_map` (complex conjugation). -/
def Fp2.frobenius_map (a : Fp2) : Fp2 :=
  a.conjugate

/-- `Fp2::add`. -/
def Fp2.add (a rhs : Fp2) : Fp2 :=
  { c0 := BLS12_381_BASE.add a.c0 rhs.c0
    c1 := BLS12_381_BASE.add a.c1 rhs.c1 }

/-- `Fp2::double`. -/
def Fp2.double (a : Fp2) : Fp2 :=
  { c0 := BLS12_381_BASE.add a.c0 a.c0
    c1 := BLS12_381_BASE.add a.c1 a.c1 }

/-- `Fp2::sub`. -/
def Fp2.sub (a rhs : Fp2) : Fp2 :=
  { c0 := BLS12_381_BASE.sub a.c0 rhs.c0
    c1 := BLS12_381_BASE.sub a.c1 rhs.c1 }

/-- `Fp2::neg`. -/
def Fp2.neg (a : Fp2) : Fp2 :=
  { c0 := BLS12_381_BASE.neg a.c0
    c1 := BLS12_381_BASE.neg a.c1 }

/-- `Fp2::mul` (3-term schoolbook with `u² = -1`). -/
def Fp2.mul (a rhs : Fp2) : Fp2 :=
  let a0b0 := BLS12_381_BASE.mul a.c0 rhs.c0
  let a1b1 := BLS12_381_BASE.mul a.c1 rhs.c1
  let a0b1 := BLS12_381_BASE.mul a.c0 rhs.c1
  let a1b0 := BLS12_381_BASE.mul a.c1 rhs.c0
  { c0 := BLS12_381_BASE.sub a0b0 a1b1
    c1 := BLS12_381_BASE.add a0b1 a1b0 }

/-- `Fp2::square` (complex squaring). -/
def Fp2.square (a : Fp2) : Fp2 :=
  let s := BLS12_381_BASE.add a.c0 a.c1
  let d := BLS12_381_BASE.sub a.c0 a.c1
  let t := BLS12_381_BASE.add a.c0 a.c0
  { c0 := BLS12_381_BASE.mul s d
    c1 := BLS12_381_BASE.mul t a.c1 }

/-- `Fp2::invert` (norm-based, one base-field inversion). -/
def Fp2.invert (a : Fp2) : Option Fp2 :=
  let a_squared := BLS12_381_BASE.square a.c0
  let b_squared := BLS12_381_BASE.square a.c1
  let sum_of_squares := BLS12_381_BASE.add a_squared b_squared
  (BLS12_381_BASE.invert sum_of_squares).map fun t =>
    { c0 := BLS12_381_BASE.mul a.c0 t
      c1 := BLS12_381_BASE.neg (BLS12_381_BASE.mul a.c1 t) }

/-- The leading `while exp.is_even()` loop of `Fp2::pow`, with fuel:
squares the accumulator while the exponent is even. -/
def Fp2.powEvenLoop : Nat → Fp2 → Nat → Fp2 × Nat
  | 0, result, e => (result, e)
  | fuel + 1, result, e =>
    if e % 2 = 0 then Fp2.powEvenLoop fuel result.square (e / 2) else (result, e)

/-- The main `while !exp.is_zero()` loop of `Fp2::pow`, with fuel: square
the base, multiply it in when the exponent bit is set, halve. -/
def Fp2.powMainLoop : Nat → Fp2 → Fp2 → Nat → Fp2
  | 0, result, _, _ => result
  | fuel + 1, result, base, e =>
    if e = 0 then result
    else
      let base' := base.square
      Fp2.powMainLoop fuel (if e % 2 = 1 then result.mul base' else result) base' (e / 2)

/-- `Fp2::pow` (variable-time binary exponentiation with the source's
two-phase loop structure). -/
def Fp2.pow (a : Fp2) (exponent : Int) : Fp2 :=
  let e := exponent.toNat
  if e = 0 then Fp2.one
  else if e = 1 then a
  else
    let t := Fp2.powEvenLoop e a e
    if t.2 = 1 then t.1
    else Fp2.powMainLoop (t.2 + 1) t.1 t.1 (t.2 / 2)

/-- `Fp2::sqrt` (Algorithm 9 of eprint 2012/685 as implemented): raise to
the precomputed `fp2_sqrt_constant1`, branch on `α = -1`, verify by a
final squaring in the generic branch.  The `.expect`s on the two
precomputed constants cannot fire for the BLS12-381 base backend and are
modeled by a default of `0`. -/
def Fp2.sqrt (a : Fp2) : Option Fp2 :=
  if a.is_zero then some Fp2.zero
  else
    let a1 := a.pow (BLS12_381_BASE.fp2_sqrt_constant1.getD 0)
    let alpha := a1.mul (a1.mul a)
    let a0 := a.frobenius_map.mul alpha
    if a0 = Fp2.one.neg then none
    else
      let x0 := a1.mul a
      if alpha = Fp2.one.neg then
        some { c0 := BLS12_381_BASE.neg x0.c1, c1 := x0.c0 }
      else
        let b := (Fp2.one.add alpha).pow (BLS12_381_BASE.fp2_sqrt_constant2.getD 0)
        let x := b.mul x0
        if x.square = a then some x else none

/-! ### The towers `Fp6` and `Fp12` (`fields/fp6.rs`, `fields/fp12.rs`) -/

/-- `FROBENIUS_COEFF_FP6_C1`. -/
def FROBENIUS_COEFF_FP6_C1 : Fp2 :=
  { c0 := 0
    c1 := 4002409555221667392624310435006688643935503118305586438271171395842971157480381377015405980053539358417135540939436 }

/-- `FROBENIUS_COEFF_FP6_C2`. -/
def FROBENIUS_COEFF_FP6_C2 : Fp2 :=
  { c0 := 4002409555221667392624310435006688643935503118305586438271171395842971157480381377015405980053539358417135540939437
    c1 := 0 }

/-- The `Fp6` struct: `c0 + c1·v + c2·v²` with `v³ = u + 1`. -/
structure Fp6 where
  c0 : Fp2
  c1 : Fp2
  c2 : Fp2
deriving DecidableEq

/-- `Fp6::zero`. -/
def Fp6.zero : Fp6 :=
  { c0 := Fp2.zero, c1 := Fp2.zero, c2 := Fp2.zero }

/-- `Fp6::one`. -/
def Fp6.one : Fp6 :=
  { c0 := Fp2.one, c1 := Fp2.zero, c2 := Fp2.zero }

/-- `Fp6::neg`. -/
def Fp6.neg (a : Fp6) : Fp6 :=
  { c0 := a.c0.neg, c1 := a.c1.neg, c2 := a.c2.neg }

/-- `Fp6::sub`. -/
def Fp6.sub (a other : Fp6) : Fp6 :=
  { c0 := a.c0.sub other.c0, c1 := a.c1.sub other.c1, c2 := a.c2.sub other.c2 }

/-- `Fp6::add`. -/
def Fp6.add (a other : Fp6) : Fp6 :=
  { c0 := a.c0.add other.c0, c1 := a.c1.add other.c1, c2 := a.c2.add other.c2 }

/-- `Fp6::mul_by_c0_c1` (sparse multiplication, no `c2` coefficient). -/
def Fp6.mul_by_c0_c1 (a : Fp6) (c0 c1 : Fp2) : Fp6 :=
  let a_a := a.c0.mul c0
  let b_b := a.c1.mul c1
  let t1 := ((a.c2.mul c1).mul_by_nonresidue).add a_a
  let t2 := (((c0.add c1).mul (a.c0.add a.c1)).sub a_a).sub b_b
  let t3 := (a.c2.mul c0).add b_b
  { c0 := t1, c1 := t2, c2 := t3 }

/-- `Fp6::mul_by_c1` (sparse multiplication by a pure-`c1` element). -/
def Fp6.mul_by_c1 (a : Fp6) (c1 : Fp2) : Fp6 :=
  { c0 := (a.c2.mul c1).mul_by_nonresidue
    c1 := a.c0.mul c1
    c2 := a.c1.mul c1 }

/-- `Fp6::mul_by_nonresidue`: multiply by `v` (`v³ = u + 1`). -/
def Fp6.mul_by_nonresidue (a : Fp6) : Fp6 :=
  { c0 := a.c2.mul_by_nonresidue, c1 := a.c0, c2 := a.c1 }

/-- `Fp6::mul` (Karatsuba over the cubic tower). -/
def Fp6.mul (a other : Fp6) : Fp6 :=
  let a_a := a.c0.mul other.c0
  let b_b := a.c1.mul other.c1
  let c_c := a.c2.mul other.c2
  let t1 := (((a.c1.add a.c2).mul (other.c1.add other.c2)).sub b_b).sub c_c
  let t1 := t1.mul_by_nonresidue.add a_a
  let t2 := (((a.c0.add a.c1).mul (other.c0.add other.c1)).sub a_a).sub b_b
  let t2 := t2.add c_c.mul_by_nonresidue
  let t3 := ((((a.c0.add a.c2).mul (other.c0.add other.c2)).sub a_a).add b_b).sub c_c
  { c0 := t1, c1 := t2, c2 := t3 }

/-- `Fp6::square`. -/
def Fp6.square (a : Fp6) : Fp6 :=
  let s0 := a.c0.square
  let ab := a.c0.mul a.c1
  let s1 := ab.double
  let s2 := ((a.c0.sub a.c1).add a.c2).square
  let bc := a.c1.mul a.c2
  let s3 := bc.double
  let s4 := a.c2.square
  { c0 := s3.mul_by_nonresidue.add s0
    c1 := s4.mul_by_nonresidue.add s1
    c2 := (((s1.add s2).add s3).sub s0).sub s4 }

/-- `Fp6::is_zero`. -/
def Fp6.is_zero (a : Fp6) : Bool :=
  a.c0.is_zero && a.c1.is_zero && a.c2.is_zero

/-- `Fp6::invert` (norm-based reduction to one `Fp2` inversion). -/
def Fp6.invert (a : Fp6) : Option Fp6 :=
  if a.is_zero then none
  else
    let c0 := (a.c1.mul a.c2).mul_by_nonresidue
    let c0 := (a.c0.square).sub c0
    let c1 := (a.c2.square).mul_by_nonresidue
    let c1 := c1.sub (a.c0.mul a.c1)
    let c2 := a.c1.square
    let c2 := c2.sub (a.c0.mul a.c2)
    let tmp := (((a.c1.mul c2).add (a.c2.mul c1)).mul_by_nonresidue).add (a.c0.mul c0)
    match tmp.invert with
    | some t => some { c0 := t.mul c0, c1 := t.mul c1, c2 := t.mul c2 }
    | none => none

/-- `Fp6::frobenius_map` (componentwise Frobenius, then twist `c1`, `c2`
by the precomputed coefficients). -/
def Fp6.frobenius_map (a : Fp6) : Fp6 :=
  { c0 := a.c0.frobenius_map
    c1 := (a.c1.frobenius_map).mul FROBENIUS_COEFF_FP6_C1
    c2 := (a.c2.frobenius_map).mul FROBENIUS_COEFF_FP6_C2 }

/-- `FROBENIUS_COEFF_FP12_C1`. -/
def FROBENIUS_COEFF_FP12_C1 : Fp2 :=
  { c0 := 3850754370037169011952147076051364057158807420970682438676050522613628423219637725072182697113062777891589506424760
    c1 := 151655185184498381465642749684540099398075398968325446656007613510403227271200139370504932015952886146304766135027 }

/-- The `Fp12` struct: `c0 + c1·w` with `w² = v`. -/
structure Fp12 where
  c0 : Fp6
  c1 : Fp6
deriving DecidableEq

/-- `Fp12::zero`. -/
def Fp12.zero : Fp12 :=
  { c0 := Fp6.zero, c1 := Fp6.zero }

/-- `Fp12::one`. -/
def Fp12.one : Fp12 :=
  { c0 := Fp6.one, c1 := Fp6.zero }

/-- `Fp12::is_zero`. -/
def Fp12.is_zero (a : Fp12) : Bool :=
  a.c0.is_zero && a.c1.is_zero

/-- `Fp12::conjugate`. -/
def Fp12.conjugate (a : Fp12) : Fp12 :=
  { c0 := a.c0, c1 := a.c1.neg }

/-- `Fp12::mul` (Karatsuba over the quadratic tower). -/
def Fp12.mul (a other : Fp12) : Fp12 :=
  let aa := a.c0.mul other.c0
  let bb := a.c1.mul other.c1
  let o := other.c0.add other.c1
  let c1 := a.c1.add a.c0
  let c1 := c1.mul o
  let c1 := c1.sub aa
  let c1 := c1.sub bb
  let c0 := bb.mul_by_nonresidue
  let c0 := c0.add aa
  { c0 := c0, c1 := c1 }

/-- `Fp12::mul_by_c0_c1_c4` (sparse multiplication by a Miller-loop line
element). -/
def Fp12.mul_by_c0_c1_c4 (a : Fp12) (c0 c1 c4 : Fp2) : Fp12 :=
  let aa := a.c0.mul_by_c0_c1 c0 c1
  let bb := a.c1.mul_by_c1 c4
  let o := c1.add c4
  let d1 := a.c1.add a.c0
  let d1 := d1.mul_by_c0_c1 c0 o
  let d1 := (d1.sub aa).sub bb
  let d0 := bb.mul_by_nonresidue.add aa
  { c0 := d0, c1 := d1 }

/-- `Fp12::add`. -/
def Fp12.add (a other : Fp12) : Fp12 :=
  { c0 := a.c0.add other.c0, c1 := a.c1.add other.c1 }

/-- `Fp12::sub`. -/
def Fp12.sub (a other : Fp12) : Fp12 :=
  { c0 := a.c0.sub other.c0, c1 := a.c1.sub other.c1 }

/-- `Fp12::neg`. -/
def Fp12.neg (a : Fp12) : Fp12 :=
  { c0 := a.c0.neg, c1 := a.c1.neg }

/-- `Fp12::invert`. -/
def Fp12.invert (a : Fp12) : Option Fp12 :=
  if a.is_zero then none
  else
    match ((a.c0.square).sub ((a.c1.square).mul_by_nonresidue)).invert with
    | some t => some { c0 := a.c0.mul t, c1 := (a.c1.mul t).neg }
    | none => none

/-- `Fp12::square` (complex squaring). -/
def Fp12.square (a : Fp12) : Fp12 :=
  let ab := a.c0.mul a.c1
  let c0c1 := a.c0.add a.c1
  let c0 := a.c1.mul_by_nonresidue
  let c0 := c0.add a.c0
  let c0 := c0.mul c0c1
  let c0 := c0.sub ab
  let c1 := ab.add ab
  let c0 := c0.sub ab.mul_by_nonresidue
  { c0 := c0, c1 := c1 }

/-- `Fp12::frobenius_map`. -/
def Fp12.frobenius_map (a : Fp12) : Fp12 :=
  { c0 := a.c0.frobenius_map
    c1 := (a.c1.frobenius_map).mul
      { c0 := FROBENIUS_COEFF_FP12_C1, c1 := Fp2.zero, c2 := Fp2.zero } }

/-- The `TargetField` newtype over `Fp12` (`fields/target.rs`). -/
structure TargetField where
  val : Fp12
deriving DecidableEq

/-- `TargetField::one`. -/
def TargetField.one : TargetField :=
  { val := Fp12.one }

/-! ### Curve points (`curves/g1.rs`, `curves/g1_affine.rs`,
`curves/g2.rs`, `curves/g2_affine.rs`) -/

/-- The `G1Affine` struct. -/
structure G1Affine where
  x : Int
  y : Int
  infinity : Bool
deriving DecidableEq

/-- `G1Affine::is_identity`. -/
def G1Affine.is_identity (p : G1Affine) : Bool :=
  p.infinity

/-- `G1Affine::identity`. -/
def G1Affine.identity : G1Affine :=
  { x := 0, y := 1, infinity := true }

/-- The `G1Projective` struct. -/
structure G1Projective where
  x : Int
  y : Int
  z : Int
deriving DecidableEq

/-- `G1Projective::identity`: `(0, 1, 0)`. -/
def G1Projective.identity : G1Projective :=
  { x := 0, y := 1, z := 0 }

/-- `G1Projective::is_identity`. -/
def G1Projective.is_identity (p : G1Projective) : Bool :=
  p.z = 0

/-- `G1Projective::normalize` delegates to
`BLS12_381_BASE.normalize(x, y, z)`; the `.expect` panic inside is
modeled as `none`. -/
def G1Projective.normalizeOpt (p : G1Projective) : Option G1Projective :=
  (BLS12_381_BASE.normalize p.x p.y p.z).map fun t =>
    { x := t.1, y := t.2.1, z := t.2.2 }

/-- The `PartialEq for G1Projective` implementation: normalize both sides
and compare componentwise.  A panic while normalizing (the `.expect` on
an uninvertible `z`) is modeled as `none`. -/
def G1Projective.beq (p other : G1Projective) : Option Bool :=
  match p.normalizeOpt, other.normalizeOpt with
  | some pn, some qn =>
    some (decide (pn.x = qn.x) && decide (pn.y = qn.y) && decide (pn.z = qn.z))
  | _, _ => none

/-- The `G2Affine` struct. -/
structure G2Affine where
  x : Fp2
  y : Fp2
  infinity : Bool
deriving DecidableEq

/-- `G2Affine::is_identity`. -/
def G2Affine.is_identity (p : G2Affine) : Bool :=
  p.infinity

/-- `G2Affine::identity`. -/
def G2Affine.identity : G2Affine :=
  { x := Fp2.zero, y := Fp2.one, infinity := true }

/-- `G2_GENERATOR_X`. -/
def G2_GENERATOR_X : Fp2 :=
  { c0 := 352701069587466618187139116011060144890029952792775240219908644239793785735715026873347600343865175952761926303160
    c1 := 3059144344244213709971259814753781636986470325476647558659373206291635324768958432433509563104347017837885763365758 }

/-- `G2_GENERATOR_Y`. -/
def G2_GENERATOR_Y : Fp2 :=
  { c0 := 1985150602287291935568054521177171638300868978215655730859378665066344726373823718423869104263333984641494340347905
    c1 := 927553665492332455747201965776037880757740193453592970025027978793976877002675564980949289727957565575433344219582 }

/-- `G2Affine::generator`. -/
def G2Affine.generator : G2Affine :=
  { x := G2_GENERATOR_X, y := G2_GENERATOR_Y, infinity := false }

/-- The `G2Projective` struct. -/
structure G2Projective where
  x : Fp2
  y : Fp2
  z : Fp2
deriving DecidableEq

/-- `From<G2Affine> for G2Projective`: `(x, y, 1)`. -/
def G2Projective.fromAffine (q : G2Affine) : G2Projective :=
  { x := q.x, y := q.y, z := Fp2.one }

/-! ### The pairing engine (`paring.rs`) -/

/-- Modelled from the spec: `MILLER_LOOP_CONSTANT`, the BLS parameter
magnitude `0xd201_0000_0001_0000` (its defining `const` item sits in a
part of the crate not present under `src/`; the value appears verbatim
in `curves/g2.rs` and in the spec). -/
def MILLER_LOOP_CONSTANT : Nat := 0xd201000000010000

/-- Modelled from the spec: `MILLER_LOOP_CONSTANT_IS_NEG` — the BLS12-381
parameter is negative, so the Miller loop output is conjugated. -/
def MILLER_LOOP_CONSTANT_IS_NEG : Bool := true

/-- `BLS12_381Pairing::compute_doubling_coefficients`: line coefficients
for a doubling step; the G2 accumulator is updated in place, so the
updated point is returned alongside the coefficients. -/
def compute_doubling_coefficients (r : G2Projective) :
    (Fp2 × Fp2 × Fp2) × G2Projective :=
  let tmp0 := r.x.square
  let tmp1 := r.y.square
  let tmp2 := tmp1.square
  let tmp3 := (((tmp1.add r.x).square).sub tmp0).sub tmp2
  let tmp3 := tmp3.add tmp3
  let tmp4 := (tmp0.add tmp0).add tmp0
  let tmp6 := r.x.add tmp4
  let tmp5 := tmp4.square
  let zsquared := r.z.square
  let rx := (tmp5.sub tmp3).sub tmp3
  let rz := (((r.z.add r.y).square).sub tmp1).sub zsquared
  let ry := (tmp3.sub rx).mul tmp4
  let tmp2 := tmp2.add tmp2
  let tmp2 := tmp2.add tmp2
  let tmp2 := tmp2.add tmp2
  let ry := ry.sub tmp2
  let tmp3 := tmp4.mul zsquared
  let tmp3 := tmp3.add tmp3
  let tmp3 := tmp3.neg
  let tmp6 := ((tmp6.square).sub tmp0).sub tmp5
  let tmp1 := ((tmp1.add tmp1).add tmp1).add tmp1
  let tmp6 := tmp6.sub tmp1
  let tmp0 := rz.mul zsquared
  let tmp0 := tmp0.add tmp0
  ((tmp0, tmp3, tmp6), { x := rx, y := ry, z := rz })

/-- `BLS12_381Pairing::compute_addition_coefficients`: line coefficients
for an addition step against the fixed affine point `q`; returns the
updated accumulator as well. -/
def compute_addition_coefficients (r : G2Projective) (q : G2Affine) :
    (Fp2 × Fp2 × Fp2) × G2Projective :=
  let zsquared := r.z.square
  let ysquared := q.y.square
  let t0 := zsquared.mul q.x
  let t1 := (((((q.y.add r.z).square).sub ysquared).sub zsquared).mul zsquared)
  let t2 := t0.sub r.x
  let t3 := t2.square
  let t4 := t3.add t3
  let t4 := t4.add t4
  let t5 := t4.mul t2
  let t6 := (t1.sub r.y).sub r.y
  let t9 := t6.mul q.x
  let t7 := t4.mul r.x
  let rx := (((t6.square).sub t5).sub t7).sub t7
  let rz := (((r.z.add t2).square).sub zsquared).sub t3
  let t10 := q.y.add rz
  let t8 := (t7.sub rx).mul t6
  let t0 := r.y.mul t5
  let t0 := t0.add t0
  let ry := t8.sub t0
  let t10 := (t10.square).sub ysquared
  let ztsquared := rz.square
  let t10 := t10.sub ztsquared
  let t9 := (t9.add t9).sub t10
  let t10 := rz.add rz
  let t6 := t6.neg
  let t1 := t6.add t6
  ((t10, t1, t9), { x := rx, y := ry, z := rz })

/-- `BLS12_381Pairing::evaluate_line`: scale the line coefficients by the
G1 point's affine coordinates and fold them into the accumulator with
the sparse `Fp12` multiplication. -/
def evaluate_line (f : Fp12) (line_coeffs : Fp2 × Fp2 × Fp2) (p : G1Affine) : Fp12 :=
  let c0 : Fp2 :=
    { c0 := BLS12_381_BASE.mul (line_coeffs.1).c0 p.y
      c1 := BLS12_381_BASE.mul (line_coeffs.1).c1 p.y }
  let c1 : Fp2 :=
    { c0 := BLS12_381_BASE.mul (line_coeffs.2.1).c0 p.x
      c1 := BLS12_381_BASE.mul (line_coeffs.2.1).c1 p.x }
  f.mul_by_c0_c1_c4 line_coeffs.2.2 c1 c0

/-- `BLS12_381Pairing::doubling_step`: doubling-step line function,
returning the new accumulator value and the updated G2 point. -/
def doubling_step (current : G2Projective) (f : Fp12) (p : G1Affine) :
    Fp12 × G2Projective :=
  let t := compute_doubling_coefficients current
  (evaluate_line f t.1 p, t.2)

/-- `BLS12_381Pairing::addition_step`. -/
def addition_step (current : G2Projective) (q : G2Affine) (f : Fp12) (p : G1Affine) :
    Fp12 × G2Projective :=
  let t := compute_addition_coefficients current q
  (evaluate_line f t.1 p, t.2)

/-- One iteration of the `for i in (0..64).rev()` loop of
`BLS12_381Pairing::miller_loop`, on the state
`(f, found_one, current)`. -/
def millerLoopStep (p : G1Affine) (q : G2Affine)
    (st : Fp12 × Bool × G2Projective) (i : Nat) : Fp12 × Bool × G2Projective :=
  let bit := (MILLER_LOOP_CONSTANT >>> 1) >>> i &&& 1 = 1
  if !st.2.1 then
    (st.1, if bit then true else st.2.1, st.2.2)
  else
    let t := doubling_step st.2.2 st.1 p
    let t := if bit then addition_step t.2 q t.1 p else t
    (t.1.square, st.2.1, t.2)

/-- `BLS12_381Pairing::miller_loop`: the 64-iteration loop, one final
doubling step, and the conjugation for the negative BLS parameter. -/
def miller_loop (p : G1Affine) (q : G2Affine) : Fp12 :=
  let st := ((List.range 64).reverse).foldl (millerLoopStep p q)
    (Fp12.one, false, G2Projective.fromAffine q)
  let t := doubling_step st.2.2 st.1 p
  if MILLER_LOOP_CONSTANT_IS_NEG then t.1.conjugate else t.1

/-- The zipped iteration of `BLS12_381Pairing::multi_doubling_step`:
thread the shared accumulator through one doubling step per pair while
rebuilding the list of updated G2 points. -/
def multiDoublingAux : List (G2Projective × (G1Affine × G2Affine)) → Fp12 →
    Fp12 × List G2Projective
  | [], f => (f, [])
  | (cur, pq) :: rest, f =>
    let t := doubling_step cur f pq.1
    let rec_result := multiDoublingAux rest t.1
    (rec_result.1, t.2 :: rec_result.2)

/-- `BLS12_381Pairing::multi_doubling_step`. -/
def multi_doubling_step (current_points : List G2Projective) (f : Fp12)
    (pairs : List (G1Affine × G2Affine)) : Fp12 × List G2Projective :=
  multiDoublingAux (current_points.zip pairs) f

/-- The zipped iteration of `BLS12_381Pairing::multi_addition_step`. -/
def multiAdditionAux : List (G2Projective × (G1Affine × G2Affine)) → Fp12 →
    Fp12 × List G2Projective
  | [], f => (f, [])
  | (cur, pq) :: rest, f =>
    let t := addition_step cur pq.2 f pq.1
    let rec_result := multiAdditionAux rest t.1
    (rec_result.1, t.2 :: rec_result.2)

/-- `BLS12_381Pairing::multi_addition_step`. -/
def multi_addition_step (current_points : List G2Projective)
    (pairs : List (G1Affine × G2Affine)) (f : Fp12) : Fp12 × List G2Projective :=
  multiAdditionAux (current_points.zip pairs) f

/-- One iteration of the loop of
`BLS12_381Pairing::multi_miller_loop`. -/
def multiMillerLoopStep (pairs : List (G1Affine × G2Affine))
    (st : Fp12 × Bool × List G2Projective) (i : Nat) :
    Fp12 × Bool × List G2Projective :=
  let bit := (MILLER_LOOP_CONSTANT >>> 1) >>> i &&& 1 = 1
  if !st.2.1 then
    (st.1, if bit then true else st.2.1, st.2.2)
  else
    let t := multi_doubling_step st.2.2 st.1 pairs
    let t := if bit then multi_addition_step t.2 pairs t.1 else t
    (t.1.square, st.2.1, t.2)

/-- `BLS12_381Pairing::multi_miller_loop`. -/
def multi_miller_loop (pairs : List (G1Affine × G2Affine)) : Fp12 :=
  let current : List G2Projective := pairs.map fun pq => G2Projective.fromAffine pq.2
  let st := ((List.range 64).reverse).foldl (multiMillerLoopStep pairs)
    (Fp12.one, false, current)
  let t := multi_doubling_step st.2.2 st.1 pairs
  if MILLER_LOOP_CONSTANT_IS_NEG then t.1.conjugate else t.1

/-- `BLS12_381Pairing::fp4_square`. -/
def fp4_square (a b : Fp2) : Fp2 × Fp2 :=
  let a_squared := a.square
  let b_squared := b.square
  let ab_mul_2 := (((a.add b).square).sub a_squared).sub b_squared
  let c0 := a_squared.add b_squared.mul_by_nonresidue
  let c1 := ab_mul_2
  (c0, c1)

/-- `BLS12_381Pairing::cyclotomic_square` (Granger–Scott compressed
squaring). -/
def cyclotomic_square (f : Fp12) : Fp12 :=
  let z0 := f.c0.c0
  let z1 := f.c1.c1
  let z2 := f.c1.c0
  let z3 := f.c0.c2
  let z4 := f.c0.c1
  let z5 := f.c1.c2
  let t01 := fp4_square z0 z1
  let z0 := t01.1.sub z0
  let z0 := (z0.add z0).add t01.1
  let z1 := t01.2.add z1
  let z1 := (z1.add z1).add t01.2
  let t01' := fp4_square z2 z3
  let t23 := fp4_square z4 z5
  let z4 := t01'.1.sub z4
  let z4 := (z4.add z4).add t01'.1
  let z5 := t01'.2.add z5
  let z5 := (z5.add z5).add t01'.2
  let t0 := t23.2.mul_by_nonresidue
  let z2 := t0.add z2
  let z2 := (z2.add z2).add t0
  let z3 := t23.1.sub z3
  let z3 := (z3.add z3).add t23.1
  { c0 := { c0 := z0, c1 := z4, c2 := z3 }
    c1 := { c0 := z2, c1 := z1, c2 := z5 } }

/-- One iteration of the loop of `BLS12_381Pairing::cyclotomic_exp`, on
the state `(result, found_one)`. -/
def cyclotomicExpStep (base : Fp12) (st : Fp12 × Bool) (i : Nat) : Fp12 × Bool :=
  let result := if st.2 then cyclotomic_square st.1 else st.1
  if MILLER_LOOP_CONSTANT >>> i &&& 1 = 1 then (result.mul base, true)
  else (result, st.2)

/-- `BLS12_381Pairing::cyclotomic_exp`: square-and-multiply by the BLS
parameter, then conjugate. -/
def cyclotomic_exp (base : Fp12) : Fp12 :=
  let st := ((List.range 64).reverse).foldl (cyclotomicExpStep base) (Fp12.one, false)
  st.1.conjugate

/-- `BLS12_381Pairing::final_exponentiation`: easy part via Frobenius and
one inversion, hard part via the curve-specific cyclotomic addition
chain.  An inversion failure returns the identity defensively, as in the
source. -/
def final_exponentiation (miller_loop_result : Fp12) : TargetField :=
  let t0 := miller_loop_result.frobenius_map.frobenius_map.frobenius_map.frobenius_map.frobenius_map.frobenius_map
  match miller_loop_result.invert with
  | some t1 =>
    let t2 := t0.mul t1
    let t1 := t2
    let t2 := t2.frobenius_map.frobenius_map
    let t2 := t2.mul t1
    let t1 := (cyclotomic_square t2).conjugate
    let t3 := cyclotomic_exp t2
    let t4 := cyclotomic_square t3
    let t5 := t1.mul t3
    let t1 := cyclotomic_exp t5
    let t0 := cyclotomic_exp t1
    let t6 := cyclotomic_exp t0
    let t6 := t6.mul t4
    let t4 := cyclotomic_exp t6
    let t5 := t5.conjugate
    let t4 := t4.mul (t5.mul t2)
    let t5 := t2.conjugate
    let t1 := t1.mul t2
    let t1 := t1.frobenius_map.frobenius_map.frobenius_map
    let t6 := t6.mul t5
    let t6 := t6.frobenius_map
    let t3 := (t3.mul t0).frobenius_map.frobenius_map
    let t3 := t3.mul t1
    let t3 := t3.mul t6
    { val := t3.mul t4 }
  | none => { val := Fp12.one }

/-- `BLS12_381Pairing::pairing`: identity shortcut, Miller loop, final
exponentiation. -/
def pairing (g1_point : G1Affine) (g2_point : G2Affine) : TargetField :=
  if g1_point.is_identity || g2_point.is_identity then TargetField.one
  else final_exponentiation (miller_loop g1_point g2_point)

/-- Both components of an `Fp2` value are canonical representatives in
`[0, p)` for the BLS12-381 base modulus. -/
def Fp2.inRangeC (a : Fp2) : Prop :=
  inRange blsBaseModulus a.c0 ∧ inRange blsBaseModulus a.c1

instance (a : Fp2) : Decidable a.inRangeC :=
  inferInstanceAs (Decidable (_ ∧ _))

/-! ### Generic lemmas about the integer primitives -/

theorem neg_tmod_left (a b : Int) : (-a).tmod b = -(a.tmod b) := by
  rw [Int.tmod_def, Int.tmod_def, Int.neg_tdiv]
  ring

theorem tmod_bounds {v m : Int} (hm : 0 < m) : -m < v.tmod m ∧ v.tmod m < m := by
  refine ⟨?_, Int.tmod_lt_of_pos _ hm⟩
  rcases le_or_lt 0 v with hv | hv
  · have := Int.tmod_nonneg m hv
    omega
  · have h1 : (-v).tmod m < m := Int.tmod_lt_of_pos _ hm
    have h2 : (-v).tmod m = -(v.tmod m) := neg_tmod_left v m
    omega

theorem tmod_emod (v m : Int) : v.tmod m % m = v % m := by
  rw [Int.tmod_def, sub_eq_add_neg, ← mul_neg, Int.add_mul_emod_self_left]

theorem tmod_of_nonneg {v m : Int} (hv : 0 ≤ v) (hm : 0 < m) : v.tmod m = v % m :=
  Int.tmod_eq_emod hv hm.le

theorem new_element_eq_emod (s : MontgomeryBackend) (hm : 0 < s.modulus) (v : Int) :
    s.new_element v = v % s.modulus := by
  unfold MontgomeryBackend.new_element
  have hb := tmod_bounds (v := v) hm
  have he := tmod_emod v s.modulus
  by_cases h : v.tmod s.modulus < 0
  · rw [if_pos h]
    have h0 : 0 ≤ v.tmod s.modulus + s.modulus := by omega
    have h1 : v.tmod s.modulus + s.modulus < s.modulus := by omega
    calc v.tmod s.modulus + s.modulus
        = (v.tmod s.modulus + s.modulus) % s.modulus := (Int.emod_eq_of_lt h0 h1).symm
      _ = v.tmod s.modulus % s.modulus := by
            rw [show v.tmod s.modulus + s.modulus = v.tmod s.modulus + s.modulus * 1 by ring,
              Int.add_mul_emod_self_left]
      _ = v % s.modulus := he
  · rw [if_neg h]
    push_neg at h
    calc v.tmod s.modulus
        = v.tmod s.modulus % s.modulus := (Int.emod_eq_of_lt h hb.2).symm
      _ = v % s.modulus := he

theorem emod_mul_emod_left (x y m : Int) : x % m * y % m = x * y % m := by
  conv_lhs => rw [Int.mul_emod]
  rw [Int.emod_emod_of_dvd _ dvd_rfl, ← Int.mul_emod]

theorem emod_mul_emod_right (x y m : Int) : x * (y % m) % m = x * y % m := by
  conv_lhs => rw [Int.mul_emod]
  rw [Int.emod_emod_of_dvd _ dvd_rfl, ← Int.mul_emod]

/-! ### Correctness of the extended-Euclid model -/

theorem egcdAux_bezout (fuel : Nat) : ∀ a b : Nat,
    (egcdAux fuel a b).1 * a + (egcdAux fuel a b).2.1 * b =
      ((egcdAux fuel a b).2.2 : Int) := by
  induction fuel with
  | zero =>
    intro a b
    simp [egcdAux]
  | succ fuel ih =>
    intro a b
    by_cases hb : b = 0
    · simp [egcdAux, hb]
    · have h := ih b (a % b)
      have hdm : (b : Int) * ((a / b : Nat) : Int) + ((a % b : Nat) : Int) = (a : Int) := by
        exact_mod_cast Nat.div_add_mod a b
      simp only [egcdAux, if_neg hb]
      linear_combination h - (egcdAux fuel b (a % b)).2.1 * hdm

theorem egcdAux_gcd (fuel : Nat) : ∀ a b : Nat, b ≤ fuel →
    (egcdAux fuel a b).2.2 = Nat.gcd b a := by
  induction fuel with
  | zero =>
    intro a b hb
    have : b = 0 := by omega
    subst this
    simp [egcdAux]
  | succ fuel ih =>
    intro a b hb
    by_cases h0 : b = 0
    · simp [egcdAux, h0]
    · have hlt : a % b < b := Nat.mod_lt a (Nat.pos_of_ne_zero h0)
      simp only [egcdAux, if_neg h0]
      rw [ih b (a % b) (by omega)]
      exact (Nat.gcd_rec b a).symm

theorem intInvert_some_spec {a m v : Int} (ha : 0 ≤ a) (hm : 0 < m)
    (h : intInvert a m = some v) :
    0 ≤ v ∧ v < m ∧ a * v ≡ 1 [ZMOD m] := by
  unfold intInvert at h
  by_cases hg : (egcdAux m.toNat a.toNat m.toNat).2.2 = 1
  · rw [if_pos hg] at h
    have hv : (egcdAux m.toNat a.toNat m.toNat).1.emod m = v := by
      exact Option.some.inj h
    have hb := egcdAux_bezout m.toNat a.toNat m.toNat
    rw [hg] at hb
    have ha' : ((a.toNat : ℕ) : ℤ) = a := Int.toNat_of_nonneg ha
    have hm' : ((m.toNat : ℕ) : ℤ) = m := Int.toNat_of_nonneg hm.le
    rw [ha', hm'] at hb
    subst hv
    refine ⟨Int.emod_nonneg _ (ne_of_gt hm), Int.emod_lt_of_pos _ hm, ?_⟩
    calc a * ((egcdAux m.toNat a.toNat m.toNat).1 % m)
        ≡ a * (egcdAux m.toNat a.toNat m.toNat).1 [ZMOD m] :=
          Int.ModEq.mul_left a (Int.mod_modEq _ _)
      _ = 1 + m * (-(egcdAux m.toNat a.toNat m.toNat).2.1) := by linear_combination hb
      _ ≡ 1 [ZMOD m] := Int.modEq_add_fac_self
  · rw [if_neg hg] at h
    cases h

theorem intInvert_of_coprime {a m : Int} (hg : Nat.gcd m.toNat a.toNat = 1) :
    intInvert a m = some ((egcdAux m.toNat a.toNat m.toNat).1.emod m) := by
  simp only [intInvert]
  rw [egcdAux_gcd m.toNat a.toNat m.toNat (le_refl _), if_pos hg]

/-! ### Claim C9: the Newton inverse constant -/

theorem computeInvLoop_modeq (m64 : Nat) (hodd : m64 % 2 = 1) :
    ∀ k : Nat, k + 1 ≤ 64 →
      (computeInvLoop m64 k * m64 : Int) ≡ 1 [ZMOD 2 ^ (k + 1)] := by
  intro k
  induction k with
  | zero =>
    intro _
    show ((1 * m64 : Nat) : Int) ≡ 1 [ZMOD 2 ^ 1]
    have : ((1 * m64 : Nat) : Int) % 2 = 1 % 2 := by
      push_cast
      omega
    simpa [Int.ModEq] using this
  | succ k ih =>
    intro hk
    have ihh := ih (by omega)
    have hWcast : ((W64 : Nat) : Int) = 2 ^ 64 := by norm_num [W64]
    have hdvd : (2 : Int) ^ (k + 2) ∣ ((W64 : Nat) : Int) := by
      rw [hWcast]
      exact pow_dvd_pow 2 (by omega)
    set x : Int := (computeInvLoop m64 k : Int) with hx
    have hstep : (computeInvLoop m64 (k + 1) : Int) =
        ((x * x % ((W64 : Nat) : Int)) * (m64 : Int)) % ((W64 : Nat) : Int) := by
      have hN : computeInvLoop m64 (k + 1) =
          (computeInvLoop m64 k * computeInvLoop m64 k % W64) * m64 % W64 := rfl
      rw [hN]
      push_cast
      rfl
    rw [hstep]
    have h1 : ((x * x % ((W64 : Nat) : Int)) * (m64 : Int)) % ((W64 : Nat) : Int) * (m64 : Int)
        ≡ ((x * x % ((W64 : Nat) : Int)) * (m64 : Int)) * (m64 : Int) [ZMOD 2 ^ (k + 2)] :=
      Int.ModEq.mul_right _ (Int.ModEq.of_dvd hdvd (Int.mod_modEq _ _))
    have h2 : (x * x % ((W64 : Nat) : Int)) * (m64 : Int) * (m64 : Int)
        ≡ x * x * (m64 : Int) * (m64 : Int) [ZMOD 2 ^ (k + 2)] :=
      Int.ModEq.mul_right _ (Int.ModEq.mul_right _ (Int.ModEq.of_dvd hdvd (Int.mod_modEq _ _)))
    refine (h1.trans (h2.trans ?_))
    have hsq : x * x * (m64 : Int) * (m64 : Int) = (x * (m64 : Int)) ^ 2 := by ring
    rw [hsq]
    obtain ⟨t, ht⟩ := (Int.modEq_iff_dvd.mp ihh)
    have hxm : x * (m64 : Int) = 1 - 2 ^ (k + 1) * t := by linarith
    refine Int.modEq_iff_dvd.mpr ⟨t - 2 ^ k * t ^ 2, ?_⟩
    rw [hxm]
    ring

/-- Claim C9 (confirmed): for every positive odd modulus, the constant
`inv` computed by `MontgomeryBackend::compute_inv` (63 rounds of
wrapping squaring and multiplication over `u64`, then `wrapping_neg`)
satisfies `inv * modulus ≡ -1 (mod 2^64)`, i.e. `inv` is
`-modulus⁻¹ mod 2⁶⁴`. -/
theorem C9_newton_inverse_constant (m : Int) (hm : 0 < m) (hodd : m % 2 = 1) :
    compute_inv m * m ≡ -1 [ZMOD 2 ^ 64] := by
  have hodd64 : (m.toNat % W64) % 2 = 1 := by
    show (m.toNat % 18446744073709551616) % 2 = 1
    omega
  have hinv := computeInvLoop_modeq (m.toNat % W64) hodd64 63 (by omega)
  set x : Nat := computeInvLoop (m.toNat % W64) 63 with hxdef
  have hxW : x % W64 ≤ W64 := le_of_lt (Nat.mod_lt _ (by norm_num [W64]))
  have hunfold : compute_inv m = (((W64 - x % W64) % W64 : Nat) : Int) := rfl
  rw [hunfold]
  have hcast : (((W64 - x % W64) % W64 : Nat) : Int) ≡
      ((W64 : Nat) : Int) - ((x % W64 : Nat) : Int) [ZMOD 2 ^ 64] := by
    have hW : ((W64 : Nat) : Int) = 2 ^ 64 := by norm_num [W64]
    have : (((W64 - x % W64) % W64 : Nat) : Int) =
        (((W64 : Nat) : Int) - ((x % W64 : Nat) : Int)) % ((W64 : Nat) : Int) := by
      rw [← Nat.cast_sub hxW]
      exact_mod_cast Int.ofNat_emod _ _
    rw [this, hW]
    exact Int.mod_modEq _ _
  have hxmod : ((x % W64 : Nat) : Int) ≡ (x : Int) [ZMOD 2 ^ 64] := by
    have : ((x % W64 : Nat) : Int) = (x : Int) % ((W64 : Nat) : Int) := by
      exact_mod_cast Int.ofNat_emod _ _
    rw [this, show ((W64 : Nat) : Int) = 2 ^ 64 by norm_num [W64]]
    exact Int.mod_modEq _ _
  have hWzero : ((W64 : Nat) : Int) ≡ 0 [ZMOD 2 ^ 64] := by
    rw [show ((W64 : Nat) : Int) = 2 ^ 64 by norm_num [W64]]
    exact Int.modEq_zero_iff_dvd.mpr dvd_rfl
  have hm64 : ((m.toNat % W64 : Nat) : Int) ≡ m [ZMOD 2 ^ 64] := by
    have h1 : ((m.toNat % W64 : Nat) : Int) = ((m.toNat : Nat) : Int) % ((W64 : Nat) : Int) := by
      exact_mod_cast Int.ofNat_emod _ _
    rw [h1, Int.toNat_of_nonneg hm.le, show ((W64 : Nat) : Int) = 2 ^ 64 by norm_num [W64]]
    exact Int.mod_modEq _ _
  calc (((W64 - x % W64) % W64 : Nat) : Int) * m
      ≡ (((W64 : Nat) : Int) - ((x % W64 : Nat) : Int)) * m [ZMOD 2 ^ 64] :=
        Int.ModEq.mul_right m hcast
    _ ≡ (0 - (x : Int)) * m [ZMOD 2 ^ 64] :=
        Int.ModEq.mul_right m (Int.ModEq.sub hWzero hxmod)
    _ = -((x : Int) * m) := by ring
    _ ≡ -((x : Int) * ((m.toNat % W64 : Nat) : Int)) [ZMOD 2 ^ 64] :=
        (Int.ModEq.mul_left _ hm64).symm.neg
    _ ≡ -1 [ZMOD 2 ^ 64] := Int.ModEq.neg hinv

/-- Witness for C9 at the concrete odd modulus `7`. -/
theorem C9_newton_inverse_constant_witness :
    (0 : Int) < 7 ∧ (7 : Int) % 2 = 1 ∧ compute_inv 7 * 7 ≡ -1 [ZMOD 2 ^ 64] :=
  ⟨by decide, by decide, C9_newton_inverse_constant 7 (by decide) (by decide)⟩

/-! ### Facts about `MontgomeryBackend.new` -/

theorem new_modulus (m : Int) (L : Nat) : (MontgomeryBackend.new m L).modulus = m := rfl

theorem new_r_eq (m : Int) (L : Nat) :
    (MontgomeryBackend.new m L).r = (2 : Int) ^ (L * 64) % m := rfl

theorem new_r2_eq (m : Int) (L : Nat) :
    (MontgomeryBackend.new m L).r2 = (MontgomeryBackend.new m L).r ^ 2 % m := rfl

theorem new_r3_eq (m : Int) (L : Nat) :
    (MontgomeryBackend.new m L).r3 =
      ((MontgomeryBackend.new m L).r * (MontgomeryBackend.new m L).r2).tmod m := rfl

theorem new_r_range {m : Int} (L : Nat) (hm : 0 < m) :
    inRange m (MontgomeryBackend.new m L).r := by
  rw [new_r_eq]
  exact ⟨Int.emod_nonneg _ (ne_of_gt hm), Int.emod_lt_of_pos _ hm⟩

theorem new_r2_nonneg {m : Int} (L : Nat) (hm : 0 < m) :
    0 ≤ (MontgomeryBackend.new m L).r2 := by
  rw [new_r2_eq]
  exact Int.emod_nonneg _ (ne_of_gt hm)

theorem intInvert_range {a m v : Int} (hm : 0 < m) (h : intInvert a m = some v) :
    inRange m v := by
  simp only [intInvert] at h
  split_ifs at h
  have hv : (egcdAux m.toNat a.toNat m.toNat).1.emod m = v := Option.some.inj h
  subst hv
  exact ⟨Int.emod_nonneg _ (ne_of_gt hm), Int.emod_lt_of_pos _ hm⟩

theorem r_inv_nonneg (s : MontgomeryBackend) {m : Int} (L : Nat) (hm : 0 < m)
    (hs : s = MontgomeryBackend.new m L) : 0 ≤ s.r_inv := by
  subst hs
  show 0 ≤ (intInvert (compute_r m L) m).getD 0
  cases h : intInvert (compute_r m L) m with
  | none => simp
  | some v =>
    simp only [Option.getD_some]
    exact (intInvert_range hm h).1

theorem new_coprime_r {m : Int} (L : Nat) (hm : 0 < m) (hodd : m % 2 = 1) :
    Nat.gcd m.toNat ((MontgomeryBackend.new m L).r).toNat = 1 := by
  have hMo : m.toNat % 2 = 1 := by omega
  have hcast : (MontgomeryBackend.new m L).r = ((2 ^ (L * 64) % m.toNat : ℕ) : ℤ) := by
    rw [new_r_eq]
    rw [show (m : ℤ) = ((m.toNat : ℕ) : ℤ) from (Int.toNat_of_nonneg hm.le).symm]
    push_cast
    rfl
  rw [hcast, Int.toNat_natCast]
  have h2 : Nat.Coprime 2 m.toNat :=
    (Nat.Prime.coprime_iff_not_dvd Nat.prime_two).mpr (by omega)
  have h3 : Nat.Coprime m.toNat (2 ^ (L * 64)) := Nat.Coprime.pow_right _ h2.symm
  calc Nat.gcd m.toNat (2 ^ (L * 64) % m.toNat)
      = Nat.gcd (2 ^ (L * 64) % m.toNat) m.toNat := Nat.gcd_comm _ _
    _ = Nat.gcd m.toNat (2 ^ (L * 64)) := (Nat.gcd_rec m.toNat (2 ^ (L * 64))).symm
    _ = 1 := h3

theorem new_r_inv_spec {m : Int} (L : Nat) (hm : 0 < m) (hodd : m % 2 = 1) :
    0 ≤ (MontgomeryBackend.new m L).r_inv ∧ (MontgomeryBackend.new m L).r_inv < m ∧
      (MontgomeryBackend.new m L).r * (MontgomeryBackend.new m L).r_inv ≡ 1 [ZMOD m] := by
  have hc := new_coprime_r L hm hodd
  have hcr : ((MontgomeryBackend.new m L).r).toNat = ((compute_r m L)).toNat := rfl
  rw [hcr] at hc
  have hsome := intInvert_of_coprime (a := compute_r m L) (m := m) hc
  have hrv : (MontgomeryBackend.new m L).r_inv =
      (egcdAux m.toNat (compute_r m L).toNat m.toNat).1.emod m := by
    show (intInvert (compute_r m L) m).getD 0 = _
    rw [hsome]
    rfl
  have hr0 : 0 ≤ compute_r m L := by
    show 0 ≤ (2 : Int) ^ (L * 64) % m
    exact Int.emod_nonneg _ (ne_of_gt hm)
  have hspec := intInvert_some_spec hr0 hm hsome
  refine ⟨?_, ?_, ?_⟩
  · rw [hrv]; exact hspec.1
  · rw [hrv]; exact hspec.2.1
  · have : (MontgomeryBackend.new m L).r = compute_r m L := rfl
    rw [this, hrv]
    exact hspec.2.2

/-! ### Montgomery multiplication over canonical representatives -/

theorem mont_mul_eq {s : MontgomeryBackend} (hm : 0 < s.modulus)
    {a b : Int} (ha : 0 ≤ a) (hb : 0 ≤ b) (hri : 0 ≤ s.r_inv) :
    s.mont_mul a b = a * b * s.r_inv % s.modulus := by
  unfold MontgomeryBackend.mont_mul
  rw [tmod_of_nonneg (mul_nonneg ha hb) hm]
  rw [tmod_of_nonneg (mul_nonneg (Int.emod_nonneg _ (ne_of_gt hm)) hri) hm]
  rw [emod_mul_emod_left]

theorem mont_mul_range {s : MontgomeryBackend} (hm : 0 < s.modulus)
    {a b : Int} (ha : 0 ≤ a) (hb : 0 ≤ b) (hri : 0 ≤ s.r_inv) :
    inRange s.modulus (s.mont_mul a b) := by
  rw [mont_mul_eq hm ha hb hri]
  exact ⟨Int.emod_nonneg _ (ne_of_gt hm), Int.emod_lt_of_pos _ hm⟩

/-! ### Claim C7: the Montgomery round trip -/

/-- Claim C7 (confirmed): for every positive odd modulus and every
integer `a` with `0 ≤ a < modulus`,
`from_montgomery(to_montgomery(a)) == a` on the backend built by
`MontgomeryBackend::new`. -/
theorem C7_montgomery_round_trip (m : Int) (L : Nat) (a : Int)
    (hm : 0 < m) (hodd : m % 2 = 1) (ha0 : 0 ≤ a) (ham : a < m) :
    (MontgomeryBackend.new m L).from_montgomery
      ((MontgomeryBackend.new m L).to_montgomery a) = a := by
  obtain ⟨hri0, hrim, hrr⟩ := new_r_inv_spec L hm hodd
  have hmod : (MontgomeryBackend.new m L).modulus = m := rfl
  have hmods : 0 < (MontgomeryBackend.new m L).modulus := by rw [hmod]; exact hm
  have hr20 : 0 ≤ (MontgomeryBackend.new m L).r2 := new_r2_nonneg L hm
  have h1 : (MontgomeryBackend.new m L).to_montgomery a =
      a * (MontgomeryBackend.new m L).r2 * (MontgomeryBackend.new m L).r_inv % m := by
    show (MontgomeryBackend.new m L).mont_mul a (MontgomeryBackend.new m L).r2 = _
    rw [mont_mul_eq hmods ha0 hr20 hri0, hmod]
  have h2 : (MontgomeryBackend.new m L).from_montgomery
      ((MontgomeryBackend.new m L).to_montgomery a) =
      a * (MontgomeryBackend.new m L).r2 * (MontgomeryBackend.new m L).r_inv *
        (MontgomeryBackend.new m L).r_inv % m := by
    show (MontgomeryBackend.new m L).mont_mul _ 1 = _
    rw [h1, mont_mul_eq hmods (Int.emod_nonneg _ (ne_of_gt hm)) zero_le_one hri0, hmod,
      mul_one, emod_mul_emod_left]
  rw [h2]
  have e1 : (MontgomeryBackend.new m L).r2 ≡ (MontgomeryBackend.new m L).r ^ 2 [ZMOD m] := by
    rw [new_r2_eq]
    exact Int.mod_modEq _ _
  have key : a * (MontgomeryBackend.new m L).r2 * (MontgomeryBackend.new m L).r_inv *
      (MontgomeryBackend.new m L).r_inv ≡ a [ZMOD m] := by
    calc a * (MontgomeryBackend.new m L).r2 * (MontgomeryBackend.new m L).r_inv *
        (MontgomeryBackend.new m L).r_inv
        ≡ a * (MontgomeryBackend.new m L).r ^ 2 * (MontgomeryBackend.new m L).r_inv *
          (MontgomeryBackend.new m L).r_inv [ZMOD m] :=
          Int.ModEq.mul_right _ (Int.ModEq.mul_right _ (Int.ModEq.mul_left a e1))
      _ = a * ((MontgomeryBackend.new m L).r * (MontgomeryBackend.new m L).r_inv) ^ 2 := by
          ring
      _ ≡ a * 1 ^ 2 [ZMOD m] := Int.ModEq.mul_left a (hrr.pow 2)
      _ = a := by ring
  calc a * (MontgomeryBackend.new m L).r2 * (MontgomeryBackend.new m L).r_inv *
      (MontgomeryBackend.new m L).r_inv % m
      = a % m := key
    _ = a := Int.emod_eq_of_lt ha0 ham

/-- Witness for C7 at modulus `7`, one limb, `a = 3`. -/
theorem C7_montgomery_round_trip_witness :
    (0 : Int) < 7 ∧ (7 : Int) % 2 = 1 ∧ (0 : Int) ≤ 3 ∧ (3 : Int) < 7 ∧
      (MontgomeryBackend.new 7 1).from_montgomery
        ((MontgomeryBackend.new 7 1).to_montgomery 3) = 3 :=
  ⟨by decide, by decide, by decide, by decide,
    C7_montgomery_round_trip 7 1 3 (by decide) (by decide) (by decide) (by decide)⟩

/-! ### Claim C8: the random-sampling combination formula -/

/-- Claim C8 (corrected): counterexample to the claim as stated.  On the
backend with modulus `7` and one limb, for the concrete 16-byte draw
below with `d0 = 1` and `d1 = 2`, `sample_raw` returns `5`, while the
claimed `(d0·R + d1·R²) mod m` equals `3`. -/
theorem C8_sample_raw_counterexample :
    ¬((MontgomeryBackend.new 7 1).sample_raw
        [0, 0, 0, 0, 0, 0, 0, 1, 0, 0, 0, 0, 0, 0, 0, 2] =
      ((MontgomeryBackend.new 7 1).sample_d0
          [0, 0, 0, 0, 0, 0, 0, 1, 0, 0, 0, 0, 0, 0, 0, 2] *
        (MontgomeryBackend.new 7 1).r +
        (MontgomeryBackend.new 7 1).sample_d1
          [0, 0, 0, 0, 0, 0, 0, 1, 0, 0, 0, 0, 0, 0, 0, 2] *
        (MontgomeryBackend.new 7 1).r2) % 7) := by
  decide

/-- Claim C8 (corrected, amended statement): `mont_mul` divides by `R`
once, so for every positive odd modulus and every byte draw,
`sample_raw` returns `(d0 + d1·R) mod m` (not `(d0·R + d1·R²) mod m`)
and `sample_mont` returns `(d0·R + d1·R²) mod m` (not
`(d0·R² + d1·R³) mod m`). -/
theorem C8_sampling_combination (m : Int) (L : Nat) (bytes : List Nat)
    (hm : 0 < m) (hodd : m % 2 = 1) :
    (MontgomeryBackend.new m L).sample_raw bytes =
      ((MontgomeryBackend.new m L).sample_d0 bytes +
        (MontgomeryBackend.new m L).sample_d1 bytes * (MontgomeryBackend.new m L).r) % m ∧
    (MontgomeryBackend.new m L).sample_mont bytes =
      ((MontgomeryBackend.new m L).sample_d0 bytes * (MontgomeryBackend.new m L).r +
        (MontgomeryBackend.new m L).sample_d1 bytes * (MontgomeryBackend.new m L).r2) % m := by
  obtain ⟨hri0, hrim, hrr⟩ := new_r_inv_spec L hm hodd
  have hmod : (MontgomeryBackend.new m L).modulus = m := rfl
  have hmods : 0 < (MontgomeryBackend.new m L).modulus := by rw [hmod]; exact hm
  have hd00 : 0 ≤ (MontgomeryBackend.new m L).sample_d0 bytes := by
    unfold MontgomeryBackend.sample_d0
    exact Int.natCast_nonneg _
  have hd10 : 0 ≤ (MontgomeryBackend.new m L).sample_d1 bytes := by
    unfold MontgomeryBackend.sample_d1
    exact Int.natCast_nonneg _
  have hr0 : 0 ≤ (MontgomeryBackend.new m L).r := (new_r_range L hm).1
  have hr20 : 0 ≤ (MontgomeryBackend.new m L).r2 := new_r2_nonneg L hm
  have hr30 : 0 ≤ (MontgomeryBackend.new m L).r3 := by
    rw [new_r3_eq]
    exact Int.tmod_nonneg _ (mul_nonneg hr0 hr20)
  have e1 : (MontgomeryBackend.new m L).r2 ≡ (MontgomeryBackend.new m L).r ^ 2 [ZMOD m] := by
    rw [new_r2_eq]
    exact Int.mod_modEq _ _
  have e3 : (MontgomeryBackend.new m L).r3 ≡ (MontgomeryBackend.new m L).r ^ 3 [ZMOD m] := by
    rw [new_r3_eq, tmod_of_nonneg (mul_nonneg hr0 hr20) hm]
    calc (MontgomeryBackend.new m L).r * (MontgomeryBackend.new m L).r2 % m
        ≡ (MontgomeryBackend.new m L).r * (MontgomeryBackend.new m L).r2 [ZMOD m] :=
          Int.mod_modEq _ _
      _ ≡ (MontgomeryBackend.new m L).r * (MontgomeryBackend.new m L).r ^ 2 [ZMOD m] :=
          Int.ModEq.mul_left _ e1
      _ = (MontgomeryBackend.new m L).r ^ 3 := by ring
  constructor
  · show ((MontgomeryBackend.new m L).mont_mul _ (MontgomeryBackend.new m L).r +
      (MontgomeryBackend.new m L).mont_mul _ (MontgomeryBackend.new m L).r2).tmod
        (MontgomeryBackend.new m L).modulus = _
    rw [mont_mul_eq hmods hd00 hr0 hri0, mont_mul_eq hmods hd10 hr20 hri0, hmod]
    rw [tmod_of_nonneg
      (add_nonneg (Int.emod_nonneg _ (ne_of_gt hm)) (Int.emod_nonneg _ (ne_of_gt hm))) hm]
    rw [← Int.add_emod]
    apply Int.ModEq.eq
    have t1 : (MontgomeryBackend.new m L).sample_d0 bytes * (MontgomeryBackend.new m L).r *
        (MontgomeryBackend.new m L).r_inv ≡
        (MontgomeryBackend.new m L).sample_d0 bytes [ZMOD m] := by
      calc (MontgomeryBackend.new m L).sample_d0 bytes * (MontgomeryBackend.new m L).r *
          (MontgomeryBackend.new m L).r_inv
          = (MontgomeryBackend.new m L).sample_d0 bytes *
            ((MontgomeryBackend.new m L).r * (MontgomeryBackend.new m L).r_inv) := by ring
        _ ≡ (MontgomeryBackend.new m L).sample_d0 bytes * 1 [ZMOD m] :=
            Int.ModEq.mul_left _ hrr
        _ = (MontgomeryBackend.new m L).sample_d0 bytes := by ring
    have t2 : (MontgomeryBackend.new m L).sample_d1 bytes * (MontgomeryBackend.new m L).r2 *
        (MontgomeryBackend.new m L).r_inv ≡
        (MontgomeryBackend.new m L).sample_d1 bytes * (MontgomeryBackend.new m L).r [ZMOD m] := by
      calc (MontgomeryBackend.new m L).sample_d1 bytes * (MontgomeryBackend.new m L).r2 *
          (MontgomeryBackend.new m L).r_inv
          ≡ (MontgomeryBackend.new m L).sample_d1 bytes * (MontgomeryBackend.new m L).r ^ 2 *
            (MontgomeryBackend.new m L).r_inv [ZMOD m] :=
            Int.ModEq.mul_right _ (Int.ModEq.mul_left _ e1)
        _ = (MontgomeryBackend.new m L).sample_d1 bytes * (MontgomeryBackend.new m L).r *
            ((MontgomeryBackend.new m L).r * (MontgomeryBackend.new m L).r_inv) := by ring
        _ ≡ (MontgomeryBackend.new m L).sample_d1 bytes * (MontgomeryBackend.new m L).r * 1
            [ZMOD m] := Int.ModEq.mul_left _ hrr
        _ = (MontgomeryBackend.new m L).sample_d1 bytes * (MontgomeryBackend.new m L).r := by
            ring
    exact Int.ModEq.add t1 t2
  · show ((MontgomeryBackend.new m L).mont_mul _ (MontgomeryBackend.new m L).r2 +
      (MontgomeryBackend.new m L).mont_mul _ (MontgomeryBackend.new m L).r3).tmod
        (MontgomeryBackend.new m L).modulus = _
    rw [mont_mul_eq hmods hd00 hr20 hri0, mont_mul_eq hmods hd10 hr30 hri0, hmod]
    rw [tmod_of_nonneg
      (add_nonneg (Int.emod_nonneg _ (ne_of_gt hm)) (Int.emod_nonneg _ (ne_of_gt hm))) hm]
    rw [← Int.add_emod]
    apply Int.ModEq.eq
    have t1 : (MontgomeryBackend.new m L).sample_d0 bytes * (MontgomeryBackend.new m L).r2 *
        (MontgomeryBackend.new m L).r_inv ≡
        (MontgomeryBackend.new m L).sample_d0 bytes * (MontgomeryBackend.new m L).r [ZMOD m] := by
      calc (MontgomeryBackend.new m L).sample_d0 bytes * (MontgomeryBackend.new m L).r2 *
          (MontgomeryBackend.new m L).r_inv
          ≡ (MontgomeryBackend.new m L).sample_d0 bytes * (MontgomeryBackend.new m L).r ^ 2 *
            (MontgomeryBackend.new m L).r_inv [ZMOD m] :=
            Int.ModEq.mul_right _ (Int.ModEq.mul_left _ e1)
        _ = (MontgomeryBackend.new m L).sample_d0 bytes * (MontgomeryBackend.new m L).r *
            ((MontgomeryBackend.new m L).r * (MontgomeryBackend.new m L).r_inv) := by ring
        _ ≡ (MontgomeryBackend.new m L).sample_d0 bytes * (MontgomeryBackend.new m L).r * 1
            [ZMOD m] := Int.ModEq.mul_left _ hrr
        _ = (MontgomeryBackend.new m L).sample_d0 bytes * (MontgomeryBackend.new m L).r := by ring
    have t2 : (MontgomeryBackend.new m L).sample_d1 bytes * (MontgomeryBackend.new m L).r3 *
        (MontgomeryBackend.new m L).r_inv ≡
        (MontgomeryBackend.new m L).sample_d1 bytes * (MontgomeryBackend.new m L).r2 [ZMOD m] := by
      calc (MontgomeryBackend.new m L).sample_d1 bytes * (MontgomeryBackend.new m L).r3 *
          (MontgomeryBackend.new m L).r_inv
          ≡ (MontgomeryBackend.new m L).sample_d1 bytes * (MontgomeryBackend.new m L).r ^ 3 *
            (MontgomeryBackend.new m L).r_inv [ZMOD m] :=
            Int.ModEq.mul_right _ (Int.ModEq.mul_left _ e3)
        _ = (MontgomeryBackend.new m L).sample_d1 bytes * (MontgomeryBackend.new m L).r ^ 2 *
            ((MontgomeryBackend.new m L).r * (MontgomeryBackend.new m L).r_inv) := by ring
        _ ≡ (MontgomeryBackend.new m L).sample_d1 bytes * (MontgomeryBackend.new m L).r ^ 2 * 1
            [ZMOD m] := Int.ModEq.mul_left _ hrr
        _ ≡ (MontgomeryBackend.new m L).sample_d1 bytes * (MontgomeryBackend.new m L).r2 [ZMOD m] := by
            rw [mul_one]
            exact (Int.ModEq.mul_left _ e1).symm
    exact Int.ModEq.add t1 t2

/-- Witness for the amended C8 at modulus `7`, one limb, and the
16-byte draw of the counterexample. -/
theorem C8_sampling_combination_witness :
    (0 : Int) < 7 ∧ (7 : Int) % 2 = 1 ∧
      (MontgomeryBackend.new 7 1).sample_raw
          [0, 0, 0, 0, 0, 0, 0, 1, 0, 0, 0, 0, 0, 0, 0, 2] =
        ((MontgomeryBackend.new 7 1).sample_d0
            [0, 0, 0, 0, 0, 0, 0, 1, 0, 0, 0, 0, 0, 0, 0, 2] +
          (MontgomeryBackend.new 7 1).sample_d1
            [0, 0, 0, 0, 0, 0, 0, 1, 0, 0, 0, 0, 0, 0, 0, 2] *
          (MontgomeryBackend.new 7 1).r) % 7 :=
  ⟨by decide, by decide,
    (C8_sampling_combination 7 1 [0, 0, 0, 0, 0, 0, 0, 1, 0, 0, 0, 0, 0, 0, 0, 2]
      (by decide) (by decide)).1⟩

/-! ### Claim C10: every field operation preserves canonical range -/

theorem mont_powAux_range (s : MontgomeryBackend) (hm : 0 < s.modulus) (hri : 0 ≤ s.r_inv) :
    ∀ (fuel : Nat) (result base : Int) (exp : Nat),
      inRange s.modulus result → 0 ≤ base →
      inRange s.modulus (s.mont_powAux fuel result base exp) := by
  intro fuel
  induction fuel with
  | zero =>
    intro result base exp hres _
    exact hres
  | succ fuel ih =>
    intro result base exp hres hb
    by_cases he : exp = 0
    · simp only [MontgomeryBackend.mont_powAux, if_pos he]
      exact hres
    · simp only [MontgomeryBackend.mont_powAux, if_neg he]
      apply ih
      · split_ifs
        · exact mont_mul_range hm hres.1 hb hri
        · exact hres
      · exact (mont_mul_range hm hb hb hri).1

theorem tmod_range {m : Int} (hm : 0 < m) {x : Int} (hx : 0 ≤ x) : inRange m (x.tmod m) := by
  rw [tmod_of_nonneg hx hm]
  exact ⟨Int.emod_nonneg _ (ne_of_gt hm), Int.emod_lt_of_pos _ hm⟩

/-- Claim C10 (confirmed): on a backend built by `MontgomeryBackend::new`
with a positive modulus, every field operation — `new_element`, `add`,
`sub`, `mul`, `square`, `cubic`, `neg`, `pow`, `mont_mul`, `mont_pow`,
and the `Some` values of `invert` and `sqrt` — maps canonical
representatives in `[0, modulus)` back into `[0, modulus)`. -/
theorem C10_range_invariant (m : Int) (L : Nat) (a b : Int)
    (hm : 0 < m) (ha0 : 0 ≤ a) (ham : a < m) (hb0 : 0 ≤ b) (hbm : b < m) :
    (∀ v : Int, inRange m ((MontgomeryBackend.new m L).new_element v)) ∧
    inRange m ((MontgomeryBackend.new m L).add a b) ∧
    inRange m ((MontgomeryBackend.new m L).sub a b) ∧
    inRange m ((MontgomeryBackend.new m L).mul a b) ∧
    inRange m ((MontgomeryBackend.new m L).square a) ∧
    inRange m ((MontgomeryBackend.new m L).cubic a) ∧
    inRange m ((MontgomeryBackend.new m L).neg a) ∧
    (∀ e : Int, inRange m ((MontgomeryBackend.new m L).pow a e)) ∧
    inRange m ((MontgomeryBackend.new m L).mont_mul a b) ∧
    (∀ e : Int, inRange m ((MontgomeryBackend.new m L).mont_pow a e)) ∧
    (∀ r : Int, (MontgomeryBackend.new m L).invert a = some r → inRange m r) ∧
    (∀ r : Int, (MontgomeryBackend.new m L).sqrt a = some r → inRange m r) := by
  have hmod : (MontgomeryBackend.new m L).modulus = m := rfl
  have hmods : 0 < (MontgomeryBackend.new m L).modulus := by rw [hmod]; exact hm
  have hri : 0 ≤ (MontgomeryBackend.new m L).r_inv := r_inv_nonneg _ L hm rfl
  have hne : ∀ v : Int, inRange m ((MontgomeryBackend.new m L).new_element v) := by
    intro v
    rw [new_element_eq_emod _ hmods v, hmod]
    exact ⟨Int.emod_nonneg _ (ne_of_gt hm), Int.emod_lt_of_pos _ hm⟩
  have hemod : ∀ x : Int, inRange m (x % m) := fun x =>
    ⟨Int.emod_nonneg _ (ne_of_gt hm), Int.emod_lt_of_pos _ hm⟩
  have hsq : inRange m ((MontgomeryBackend.new m L).square a) :=
    tmod_range hm (mul_nonneg ha0 ha0)
  refine ⟨hne, ?_, hne _, ?_, hsq, ?_, hne _, ?_, ?_, ?_, ?_, ?_⟩
  · exact tmod_range hm (add_nonneg ha0 hb0)
  · exact tmod_range hm (mul_nonneg ha0 hb0)
  · exact tmod_range hm (mul_nonneg hsq.1 ha0)
  · intro e
    show inRange m (powMod a e.toNat m)
    exact hemod _
  · have := mont_mul_range (s := MontgomeryBackend.new m L) hmods ha0 hb0 hri
    rwa [hmod] at this
  · intro e
    have hr := new_r_range L hm
    have := mont_powAux_range (MontgomeryBackend.new m L) hmods hri
      (e.toNat + 1) (MontgomeryBackend.new m L).r a e.toNat (by rwa [hmod]) ha0
    rwa [hmod] at this
  · intro r h
    exact intInvert_range hm h
  · intro r h
    unfold MontgomeryBackend.sqrt at h
    rcases hc : (MontgomeryBackend.new m L).modulus_plus_one_div_four with _ | exp
    · rw [hc] at h
      cases h
    · rw [hc] at h
      dsimp only at h
      split_ifs at h
      have hr : (MontgomeryBackend.new m L).new_element
          ((MontgomeryBackend.new m L).pow a exp) = r := Option.some.inj h
      rw [← hr]
      exact hne _

/-- Witness for C10 at modulus `7`, one limb, `a = 4`, `b = 5`,
instantiating each quantified conjunct at a concrete argument. -/
theorem C10_range_invariant_witness :
    inRange 7 ((MontgomeryBackend.new 7 1).new_element (-23)) ∧
    inRange 7 ((MontgomeryBackend.new 7 1).add 4 5) ∧
    inRange 7 ((MontgomeryBackend.new 7 1).sub 4 5) ∧
    inRange 7 ((MontgomeryBackend.new 7 1).mul 4 5) ∧
    inRange 7 ((MontgomeryBackend.new 7 1).square 4) ∧
    inRange 7 ((MontgomeryBackend.new 7 1).cubic 4) ∧
    inRange 7 ((MontgomeryBackend.new 7 1).neg 4) ∧
    inRange 7 ((MontgomeryBackend.new 7 1).pow 4 9) ∧
    inRange 7 ((MontgomeryBackend.new 7 1).mont_mul 4 5) ∧
    inRange 7 ((MontgomeryBackend.new 7 1).mont_pow 4 9) ∧
    inRange 7 (2 : Int) := by
  have h := C10_range_invariant 7 1 4 5 (by decide) (by decide) (by decide) (by decide) (by decide)
  refine ⟨h.1 (-23), h.2.1, h.2.2.1, h.2.2.2.1, h.2.2.2.2.1, h.2.2.2.2.2.1,
    h.2.2.2.2.2.2.1, h.2.2.2.2.2.2.2.1 9, h.2.2.2.2.2.2.2.2.1,
    h.2.2.2.2.2.2.2.2.2.1 9, ?_⟩
  exact h.2.2.2.2.2.2.2.2.2.2.2 2 (by decide)

/-! ### Claim C3: the exponent of step 1 of `Fp2::sqrt` -/

/-- Claim C3 (corrected): counterexample to the claim as stated.  In
`MontgomeryBackend::new`, `q` is computed as `p ^ 2` with the rug
`BitXor` operator — `p XOR 2`, not `p²` — so the precomputed
`fp2_sqrt_constant1` of the BLS12-381 base backend is not `(p² - 3)/4`. -/
theorem C3_fp2_sqrt_exponent_counterexample :
    ¬(BLS12_381_BASE.fp2_sqrt_constant1 = some ((blsBaseModulus ^ 2 - 3) / 4)) := by
  decide

/-- Claim C3 (corrected, amended statement): the exponent precomputed as
`fp2_sqrt_constant1` equals `(p - 3)/4` where `p` is the base-field
modulus: the XOR makes `q = p - 2`, and the `+ 1` after the truncating
division of `q - 3 = p - 5` by `4` lands on `(p - 3)/4` exactly (for
`p ≡ 3 (mod 4)`). -/
theorem C3_fp2_sqrt_exponent :
    BLS12_381_BASE.fp2_sqrt_constant1 = some ((blsBaseModulus - 3) / 4) := by
  decide

/-! ### Claim C4: steady-state panic freedom -/

/-- Claim C4 (corrected): counterexample to the claim as stated.
Comparing the G1 projective identity with itself (`==`) normalizes both
sides, and `normalize` hits the `.expect("Z should be invertible")`
panic because `z = 0` has no inverse; the panic is the `none` value of
the embedded comparison. -/
theorem C4_no_panic_counterexample :
    G1Projective.beq G1Projective.identity G1Projective.identity = none := by
  decide

/-- Claim C4 (corrected, amended statement): `sqrt` and `invert` signal
domain errors through `Option` returns, but normalizing (and hence
comparing with `==`) a G1 projective point whose `z` coordinate is zero
panics on the `.expect` over the failed inversion of `z`: for every `x`
and `y`, normalization of `(x, y, 0)` reaches the panic. -/
theorem C4_normalize_zero_z_panics (x y : Int) :
    G1Projective.normalizeOpt { x := x, y := y, z := 0 } = none := by
  have h0 : intInvert 0 BLS12_381_BASE.modulus = none := by decide
  show (BLS12_381_BASE.normalize x y 0).map _ = none
  unfold MontgomeryBackend.normalize
  rw [if_neg (by decide : ¬((0 : Int) = 1)), h0]
  rfl

/-! ### Claim C5: pairing of the identity -/

/-- Claim C5 (confirmed): for every G1 affine point `P` and G2 affine
point `Q`, if either is the point at infinity, `pairing(P, Q)` returns
the target-group identity `TargetField::one()`. -/
theorem C5_pairing_identity (P : G1Affine) (Q : G2Affine)
    (h : P.infinity = true ∨ Q.infinity = true) :
    pairing P Q = TargetField.one := by
  unfold pairing
  rcases h with h | h <;>
    simp [G1Affine.is_identity, G2Affine.is_identity, h]

/-- Witness for C5 at the identity of G1 against the G2 generator. -/
theorem C5_pairing_identity_witness :
    (G1Affine.identity.infinity = true ∨ G2Affine.generator.infinity = true) ∧
      pairing G1Affine.identity G2Affine.generator = TargetField.one :=
  ⟨Or.inl rfl, C5_pairing_identity G1Affine.identity G2Affine.generator (Or.inl rfl)⟩

/-! ### Claim C6: the multi-Miller loop refines the single Miller loop -/

theorem multiMillerLoopStep_singleton (p : G1Affine) (q : G2Affine)
    (f : Fp12) (b : Bool) (T : G2Projective) (i : Nat) :
    multiMillerLoopStep [(p, q)] (f, b, [T]) i =
      ((millerLoopStep p q (f, b, T) i).1, (millerLoopStep p q (f, b, T) i).2.1,
        [(millerLoopStep p q (f, b, T) i).2.2]) := by
  cases b with
  | false => rfl
  | true =>
    by_cases hbit : (MILLER_LOOP_CONSTANT >>> 1) >>> i &&& 1 = 1
    · simp only [multiMillerLoopStep, millerLoopStep, multi_doubling_step, multi_addition_step,
        if_pos hbit, Bool.not_true]
      rfl
    · simp only [multiMillerLoopStep, millerLoopStep, multi_doubling_step, multi_addition_step,
        if_neg hbit, Bool.not_true]
      rfl

theorem multiMiller_foldl_singleton (p : G1Affine) (q : G2Affine) (l : List Nat) :
    ∀ (f : Fp12) (b : Bool) (T : G2Projective),
    l.foldl (multiMillerLoopStep [(p, q)]) (f, b, [T]) =
      ((l.foldl (millerLoopStep p q) (f, b, T)).1,
        (l.foldl (millerLoopStep p q) (f, b, T)).2.1,
        [(l.foldl (millerLoopStep p q) (f, b, T)).2.2]) := by
  induction l with
  | nil => intro f b T; rfl
  | cons i l ih =>
    intro f b T
    rw [List.foldl_cons, List.foldl_cons, multiMillerLoopStep_singleton]
    exact ih _ _ _

/-- Claim C6 (confirmed): for every G1 affine point `P` and G2 affine
point `Q`, `multi_miller_loop` on the one-element list `[(P, Q)]`
returns exactly the same `Fp12` value as `miller_loop(P, Q)`. -/
theorem C6_multi_miller_loop_singleton (P : G1Affine) (Q : G2Affine) :
    multi_miller_loop [(P, Q)] = miller_loop P Q := by
  have h := multiMiller_foldl_singleton P Q ((List.range 64).reverse) Fp12.one false
    (G2Projective.fromAffine Q)
  unfold multi_miller_loop miller_loop
  dsimp only
  rw [show List.map (fun pq => G2Projective.fromAffine pq.2) [(P, Q)] =
    [G2Projective.fromAffine Q] from rfl, h]
  have hfin : ∀ (T : G2Projective) (f : Fp12),
      (multi_doubling_step [T] f [(P, Q)]).1 = (doubling_step T f P).1 := fun T f => rfl
  dsimp only
  rw [hfin]

/-! ### Claim C2: square-root soundness -/


theorem blsBase_pos : 0 < blsBaseModulus := by decide

theorem blsBase_mod : BLS12_381_BASE.modulus = blsBaseModulus := rfl

theorem base_new_element_range (v : Int) :
    inRange blsBaseModulus (BLS12_381_BASE.new_element v) := by
  rw [new_element_eq_emod _ (by rw [blsBase_mod]; exact blsBase_pos) v, blsBase_mod]
  exact ⟨Int.emod_nonneg _ (ne_of_gt blsBase_pos), Int.emod_lt_of_pos _ blsBase_pos⟩

theorem base_add_range {x y : Int} (hx : 0 ≤ x) (hy : 0 ≤ y) :
    inRange blsBaseModulus (BLS12_381_BASE.add x y) :=
  tmod_range blsBase_pos (add_nonneg hx hy)

theorem base_mul_range {x y : Int} (hx : 0 ≤ x) (hy : 0 ≤ y) :
    inRange blsBaseModulus (BLS12_381_BASE.mul x y) :=
  tmod_range blsBase_pos (mul_nonneg hx hy)

theorem base_sub_range (x y : Int) :
    inRange blsBaseModulus (BLS12_381_BASE.sub x y) :=
  base_new_element_range _

theorem base_neg_range (x : Int) :
    inRange blsBaseModulus (BLS12_381_BASE.neg x) :=
  base_new_element_range _

theorem fp2_ext {u v : Fp2} (h0 : u.c0 = v.c0) (h1 : u.c1 = v.c1) : u = v := by
  cases u
  cases v
  simp_all

theorem fp2_sub_inRangeC (a b : Fp2) : (a.sub b).inRangeC :=
  ⟨base_sub_range _ _, base_sub_range _ _⟩

theorem fp2_neg_inRangeC (a : Fp2) : a.neg.inRangeC :=
  ⟨base_neg_range _, base_neg_range _⟩

theorem fp2_add_inRangeC {a b : Fp2} (ha : 0 ≤ a.c0 ∧ 0 ≤ a.c1) (hb : 0 ≤ b.c0 ∧ 0 ≤ b.c1) :
    (a.add b).inRangeC :=
  ⟨base_add_range ha.1 hb.1, base_add_range ha.2 hb.2⟩

theorem fp2_mul_inRangeC {a b : Fp2} (ha : 0 ≤ a.c0 ∧ 0 ≤ a.c1) (hb : 0 ≤ b.c0 ∧ 0 ≤ b.c1) :
    (a.mul b).inRangeC := by
  refine ⟨base_sub_range _ _, base_add_range ?_ ?_⟩
  · exact (base_mul_range ha.1 hb.2).1
  · exact (base_mul_range ha.2 hb.1).1

theorem fp2_square_inRangeC {a : Fp2} (ha : 0 ≤ a.c0 ∧ 0 ≤ a.c1) :
    a.square.inRangeC := by
  refine ⟨base_mul_range ?_ ?_, base_mul_range ?_ ?_⟩
  · exact (base_add_range ha.1 ha.2).1
  · exact (base_sub_range a.c0 a.c1).1
  · exact (base_add_range ha.1 ha.1).1
  · exact ha.2

theorem inRangeC_nonneg {a : Fp2} (h : a.inRangeC) : 0 ≤ a.c0 ∧ 0 ≤ a.c1 :=
  ⟨h.1.1, h.2.1⟩

theorem powEvenLoop_inRangeC :
    ∀ (fuel : Nat) (r : Fp2) (e : Nat), r.inRangeC → ((Fp2.powEvenLoop fuel r e).1).inRangeC := by
  intro fuel
  induction fuel with
  | zero => intro r e hr; exact hr
  | succ fuel ih =>
    intro r e hr
    show ((if e % 2 = 0 then Fp2.powEvenLoop fuel r.square (e / 2) else (r, e)).1).inRangeC
    split_ifs
    · exact ih _ _ (fp2_square_inRangeC (inRangeC_nonneg hr))
    · exact hr

theorem powMainLoop_inRangeC :
    ∀ (fuel : Nat) (r b : Fp2) (e : Nat), r.inRangeC → b.inRangeC →
      (Fp2.powMainLoop fuel r b e).inRangeC := by
  intro fuel
  induction fuel with
  | zero => intro r b e hr _; exact hr
  | succ fuel ih =>
    intro r b e hr hb
    show (if e = 0 then r else
      Fp2.powMainLoop fuel (if e % 2 = 1 then r.mul b.square else r) b.square (e / 2)).inRangeC
    by_cases h0 : e = 0
    · rw [if_pos h0]
      exact hr
    · rw [if_neg h0]
      apply ih
      · by_cases ho : e % 2 = 1
        · rw [if_pos ho]
          exact fp2_mul_inRangeC (inRangeC_nonneg hr)
            (inRangeC_nonneg (fp2_square_inRangeC (inRangeC_nonneg hb)))
        · rw [if_neg ho]
          exact hr
      · exact fp2_square_inRangeC (inRangeC_nonneg hb)

theorem fp2_one_inRangeC : Fp2.one.inRangeC := by decide

theorem fp2_pow_inRangeC {a : Fp2} (ha : a.inRangeC) (e : Int) : (a.pow e).inRangeC := by
  show (if e.toNat = 0 then Fp2.one
    else if e.toNat = 1 then a
    else if (Fp2.powEvenLoop e.toNat a e.toNat).2 = 1 then (Fp2.powEvenLoop e.toNat a e.toNat).1
    else Fp2.powMainLoop ((Fp2.powEvenLoop e.toNat a e.toNat).2 + 1)
      (Fp2.powEvenLoop e.toNat a e.toNat).1 (Fp2.powEvenLoop e.toNat a e.toNat).1
      ((Fp2.powEvenLoop e.toNat a e.toNat).2 / 2)).inRangeC
  split_ifs
  · exact fp2_one_inRangeC
  · exact ha
  · exact powEvenLoop_inRangeC _ _ _ ha
  · exact powMainLoop_inRangeC _ _ _ _ (powEvenLoop_inRangeC _ _ _ ha)
      (powEvenLoop_inRangeC _ _ _ ha)



theorem blsNat_cast : ((blsBaseModulus.toNat : ℕ) : ℤ) = blsBaseModulus := by decide

theorem cast_tmod_base (a : Int) :
    ((a.tmod blsBaseModulus : Int) : ZMod blsBaseModulus.toNat) = (a : ZMod blsBaseModulus.toNat) := by
  rw [Int.tmod_def, ← blsNat_cast]
  push_cast [ZMod.natCast_self]
  ring

theorem cast_new_element_base (v : Int) :
    ((BLS12_381_BASE.new_element v : Int) : ZMod blsBaseModulus.toNat) =
      (v : ZMod blsBaseModulus.toNat) := by
  show (((if (v.tmod BLS12_381_BASE.modulus) < 0 then v.tmod BLS12_381_BASE.modulus + BLS12_381_BASE.modulus else v.tmod BLS12_381_BASE.modulus) : Int) : ZMod blsBaseModulus.toNat) = _
  rw [blsBase_mod]
  split_ifs
  · push_cast [cast_tmod_base]
    rw [← blsNat_cast]
    push_cast [ZMod.natCast_self]
    ring
  · exact cast_tmod_base v

theorem cast_base_add (x y : Int) :
    ((BLS12_381_BASE.add x y : Int) : ZMod blsBaseModulus.toNat) =
      (x : ZMod blsBaseModulus.toNat) + (y : ZMod blsBaseModulus.toNat) := by
  show (((x + y).tmod BLS12_381_BASE.modulus : Int) : ZMod blsBaseModulus.toNat) = _
  rw [blsBase_mod, cast_tmod_base]
  push_cast
  ring

theorem cast_base_mul (x y : Int) :
    ((BLS12_381_BASE.mul x y : Int) : ZMod blsBaseModulus.toNat) =
      (x : ZMod blsBaseModulus.toNat) * (y : ZMod blsBaseModulus.toNat) := by
  show (((x * y).tmod BLS12_381_BASE.modulus : Int) : ZMod blsBaseModulus.toNat) = _
  rw [blsBase_mod, cast_tmod_base]
  push_cast
  ring

theorem cast_base_sub (x y : Int) :
    ((BLS12_381_BASE.sub x y : Int) : ZMod blsBaseModulus.toNat) =
      (x : ZMod blsBaseModulus.toNat) - (y : ZMod blsBaseModulus.toNat) := by
  show ((BLS12_381_BASE.new_element (x - y) : Int) : ZMod blsBaseModulus.toNat) = _
  rw [cast_new_element_base]
  push_cast
  ring

theorem cast_base_neg (x : Int) :
    ((BLS12_381_BASE.neg x : Int) : ZMod blsBaseModulus.toNat) =
      -(x : ZMod blsBaseModulus.toNat) := by
  show ((BLS12_381_BASE.new_element (-x) : Int) : ZMod blsBaseModulus.toNat) = _
  rw [cast_new_element_base]
  push_cast
  ring

theorem int_eq_of_cast_eq {x y : Int} (hx : inRange blsBaseModulus x)
    (hy : inRange blsBaseModulus y)
    (h : (x : ZMod blsBaseModulus.toNat) = (y : ZMod blsBaseModulus.toNat)) : x = y := by
  have h2 := (ZMod.intCast_eq_intCast_iff' x y blsBaseModulus.toNat).mp h
  rw [blsNat_cast] at h2
  rwa [Int.emod_eq_of_lt hx.1 hx.2, Int.emod_eq_of_lt hy.1 hy.2] at h2

theorem fp2_mul_self_eq_square {x : Fp2} (hx : 0 ≤ x.c0 ∧ 0 ≤ x.c1) :
    Fp2.mul x x = Fp2.square x := by
  apply fp2_ext
  · apply int_eq_of_cast_eq (fp2_mul_inRangeC hx hx).1 (fp2_square_inRangeC hx).1
    simp only [Fp2.mul, Fp2.square, cast_base_add, cast_base_mul, cast_base_sub]
    ring
  · apply int_eq_of_cast_eq (fp2_mul_inRangeC hx hx).2 (fp2_square_inRangeC hx).2
    simp only [Fp2.mul, Fp2.square, cast_base_add, cast_base_mul, cast_base_sub]
    ring



theorem fp2_sqrt_sound {a r : Fp2} (ha : a.inRangeC) (h : Fp2.sqrt a = some r) :
    Fp2.mul r r = a := by
  unfold Fp2.sqrt at h
  by_cases hz : a.is_zero = true
  · rw [if_pos hz] at h
    have hr : Fp2.zero = r := Option.some.inj h
    have ha0 : a = Fp2.zero := by
      cases a with
      | mk c0 c1 =>
        simp only [Fp2.is_zero, decide_eq_true_eq] at hz
        simp [Fp2.zero, hz.1, hz.2]
    rw [← hr, ha0]
    decide
  · rw [if_neg hz] at h
    dsimp only at h
    split_ifs at h with hA0 hAlpha hChk
    · -- the branch with alpha = -1: r = u * x0
      have hr := (Option.some.inj h).symm
      subst hr
      have hA1 : (Fp2.pow a (BLS12_381_BASE.fp2_sqrt_constant1.getD 0)).inRangeC :=
        fp2_pow_inRangeC ha _
      have hx0 : ((Fp2.pow a (BLS12_381_BASE.fp2_sqrt_constant1.getD 0)).mul a).inRangeC :=
        fp2_mul_inRangeC (inRangeC_nonneg hA1) (inRangeC_nonneg ha)
      have hc0 := congrArg (fun z : Fp2 => (z.c0 : ZMod blsBaseModulus.toNat)) hAlpha
      have hc1 := congrArg (fun z : Fp2 => (z.c1 : ZMod blsBaseModulus.toNat)) hAlpha
      simp only [Fp2.mul, Fp2.neg, Fp2.one, cast_base_add, cast_base_mul, cast_base_sub,
        cast_base_neg, Int.cast_one, Int.cast_zero] at hc0 hc1
      apply fp2_ext
      · apply int_eq_of_cast_eq _ ha.1
        · simp only [Fp2.mul, cast_base_add, cast_base_mul, cast_base_sub, cast_base_neg]
          linear_combination (-(a.c0 : ZMod blsBaseModulus.toNat)) * hc0 +
            (a.c1 : ZMod blsBaseModulus.toNat) * hc1
        · exact base_sub_range _ _
      · apply int_eq_of_cast_eq _ ha.2
        · simp only [Fp2.mul, cast_base_add, cast_base_mul, cast_base_sub, cast_base_neg]
          linear_combination (-(a.c1 : ZMod blsBaseModulus.toNat)) * hc0 +
            (-(a.c0 : ZMod blsBaseModulus.toNat)) * hc1
        · exact base_add_range (base_mul_range (base_neg_range _).1 (base_sub_range _ _).1).1
            (base_mul_range (base_sub_range _ _).1 (base_neg_range _).1).1
    · -- the generic branch: the final verification squaring was checked
      have hr := (Option.some.inj h).symm
      subst hr
      have hA1 : (Fp2.pow a (BLS12_381_BASE.fp2_sqrt_constant1.getD 0)).inRangeC :=
        fp2_pow_inRangeC ha _
      have hx0 : ((Fp2.pow a (BLS12_381_BASE.fp2_sqrt_constant1.getD 0)).mul a).inRangeC :=
        fp2_mul_inRangeC (inRangeC_nonneg hA1) (inRangeC_nonneg ha)
      have hal : ((Fp2.pow a (BLS12_381_BASE.fp2_sqrt_constant1.getD 0)).mul
          ((Fp2.pow a (BLS12_381_BASE.fp2_sqrt_constant1.getD 0)).mul a)).inRangeC :=
        fp2_mul_inRangeC (inRangeC_nonneg hA1) (inRangeC_nonneg hx0)
      have hb : ((Fp2.one.add
          ((Fp2.pow a (BLS12_381_BASE.fp2_sqrt_constant1.getD 0)).mul
            ((Fp2.pow a (BLS12_381_BASE.fp2_sqrt_constant1.getD 0)).mul a))).pow
          (BLS12_381_BASE.fp2_sqrt_constant2.getD 0)).inRangeC :=
        fp2_pow_inRangeC
          (fp2_add_inRangeC (inRangeC_nonneg fp2_one_inRangeC) (inRangeC_nonneg hal)) _
      have hxC := fp2_mul_inRangeC (inRangeC_nonneg hb) (inRangeC_nonneg hx0)
      rw [fp2_mul_self_eq_square (inRangeC_nonneg hxC), hChk]

/-- Claim C2 (confirmed): whenever a square-root operation returns
`Some(r)`, `r*r` equals the input in that field: for
`MontgomeryBackend::sqrt` (any backend with positive modulus),
`MontgomeryBackend::mont_sqrt` (any backend), and `Fp2::sqrt` on every
`Fp2` element with canonical components — including the `α = -1` branch
that returns its candidate without a final verification squaring. -/
theorem C2_sqrt_soundness :
    (∀ (s : MontgomeryBackend) (a r : Int), 0 < s.modulus → s.sqrt a = some r →
      s.mul r r = a) ∧
    (∀ (s : MontgomeryBackend) (a r : Int), s.mont_sqrt a = some r → s.mont_mul r r = a) ∧
    (∀ (a r : Fp2), a.inRangeC → Fp2.sqrt a = some r → Fp2.mul r r = a) := by
  refine ⟨?_, ?_, ?_⟩
  · intro s a r hm h
    unfold MontgomeryBackend.sqrt at h
    rcases hc : s.modulus_plus_one_div_four with _ | exp
    · rw [hc] at h
      cases h
    · rw [hc] at h
      dsimp only at h
      split_ifs at h with hchk
      have hr : s.new_element (s.pow a exp) = r := Option.some.inj h
      have hrange : inRange s.modulus (s.pow a exp) :=
        ⟨Int.emod_nonneg _ (ne_of_gt hm), Int.emod_lt_of_pos _ hm⟩
      have hne : s.new_element (s.pow a exp) = s.pow a exp := by
        rw [new_element_eq_emod s hm]
        exact Int.emod_eq_of_lt hrange.1 hrange.2
      rw [← hr, hne]
      exact hchk
  · intro s a r h
    unfold MontgomeryBackend.mont_sqrt at h
    rcases hc : s.modulus_plus_one_div_four with _ | exp
    · rw [hc] at h
      cases h
    · rw [hc] at h
      dsimp only at h
      split_ifs at h with hchk
      have hr : s.mont_pow a exp = r := Option.some.inj h
      rw [← hr]
      exact hchk
  · intro a r ha h
    exact fp2_sqrt_sound ha h

/-- Witness for C2: base sqrt of `4` mod `7`, Montgomery sqrt of the
Montgomery unit mod `7`, and the `Fp2` square root of zero. -/
theorem C2_sqrt_soundness_witness :
    ((0 : Int) < (MontgomeryBackend.new 7 1).modulus ∧
      (MontgomeryBackend.new 7 1).sqrt 4 = some 2 ∧
      (MontgomeryBackend.new 7 1).mul 2 2 = 4) ∧
    ((MontgomeryBackend.new 7 1).mont_sqrt 2 = some 2 ∧
      (MontgomeryBackend.new 7 1).mont_mul 2 2 = 2) ∧
    (Fp2.inRangeC Fp2.zero ∧ Fp2.sqrt Fp2.zero = some Fp2.zero ∧
      Fp2.mul Fp2.zero Fp2.zero = Fp2.zero) :=
  ⟨⟨by decide, by decide, C2_sqrt_soundness.1 _ 4 2 (by decide) (by decide)⟩,
    ⟨by decide, C2_sqrt_soundness.2.1 _ 2 2 (by decide)⟩,
    ⟨by decide, by decide, C2_sqrt_soundness.2.2 Fp2.zero Fp2.zero (by decide) (by decide)⟩⟩

end Zkper
